import Mathlib

/-!
# Verification of `QA_Log_Summarizer.py`

A shallow embedding of the QA log summarizer. Text is modelled as `List Char`
(Python `str`), directories as lists of file names, file contents injected as
values. The system clock (`datetime.today()`) is modelled by an explicit
`today` parameter. Python's `str.strip()` whitespace set is embedded by its
ASCII part (the inputs at stake contain no exotic Unicode whitespace), and the
regex class `\d` by ASCII decimal digits.
-/

namespace QALog

/-- ASCII part of the whitespace set used by Python `str.strip()`. -/
def pyIsSpace (c : Char) : Bool :=
  c == ' ' || c == '\t' || c == '\n' || c == '\r' || c == '\x0b' || c == '\x0c'

/-- The character set of the Python call `line.strip("- ")`. -/
def isDashSpace (c : Char) : Bool :=
  c == '-' || c == ' '

/-- Remove leading characters satisfying `p` (left half of Python `strip`). -/
def stripLeftBy (p : Char → Bool) (l : List Char) : List Char :=
  l.dropWhile p

/-- Remove trailing characters satisfying `p` (right half of Python `strip`). -/
def stripRightBy (p : Char → Bool) (l : List Char) : List Char :=
  (l.reverse.dropWhile p).reverse

/-- Python `str.strip` over the character class `p`: drop from both ends. -/
def stripBy (p : Char → Bool) (l : List Char) : List Char :=
  stripRightBy p (stripLeftBy p l)

/-- Python `line.strip()` (whitespace strip, ASCII part). -/
def pyStrip (l : List Char) : List Char :=
  stripBy pyIsSpace l

/-- Python `line.strip("- ")`. -/
def stripDashSpace (l : List Char) : List Char :=
  stripBy isDashSpace l

/-- Python `s.split("\n")`: split on newline separators; `""` gives `[""]`. -/
def splitNl : List Char → List (List Char)
  | [] => [[]]
  | c :: rest =>
    if c = '\n' then [] :: splitNl rest
    else
      match splitNl rest with
      | [] => [[c]]
      | h :: t => (c :: h) :: t

/-- Index of the first occurrence of `pat` as a contiguous substring
(`re.search` of an escaped literal scans candidate start positions left to
right). -/
def firstOccur (pat : List Char) : List Char → Option Nat
  | [] => if pat.isEmpty then some 0 else none
  | c :: rest =>
    if pat.isPrefixOf (c :: rest) then some 0
    else (firstOccur pat rest).map (· + 1)

/-- The five fixed section labels, in the insertion order of the Python dict
`sections` in `parse_log`. -/
def tasksLabel : List Char := "✅ Tasks Done".data

def bugsLabel : List Char := "🐛 Bugs Found".data

def fixesLabel : List Char := "🛠 Fixes Verified".data

def obsLabel : List Char := "📈 Observations".data

def nextLabel : List Char := "🔁 Next Steps".data

def sectionLabels : List (List Char) :=
  [tasksLabel, bugsLabel, fixesLabel, obsLabel, nextLabel]

/-- The literal text the heading regex
`rf"### {re.escape(section)}\n(.*?)(?=\n###|\Z)"` must find first:
`"### " ++ label ++ "\n"`. -/
def headingText (lbl : List Char) : List Char :=
  "### ".data ++ lbl ++ "\n".data

/-- The lookahead text `\n###` delimiting a captured block. -/
def lookaheadText : List Char := "\n###".data

/-- `re.search(rf"### {label}\n(.*?)(?=\n###|\Z)", content, re.DOTALL)`:
the match (if any) starts at the first occurrence of the literal
`"### " ++ label ++ "\n"`; the lazy group then captures up to (excluding) the
first following occurrence of `"\n###"`, or to end of text (`\Z`). -/
def captureBlock (content lbl : List Char) : Option (List Char) :=
  match firstOccur (headingText lbl) content with
  | none => none
  | some i =>
    let rest := content.drop (i + (headingText lbl).length)
    match firstOccur lookaheadText rest with
    | none => some rest
    | some k => some (rest.take k)

/-- The list comprehension
`[line.strip("- ").strip() for line in block.strip().split("\n") if line.strip()]`. -/
def processBlock (block : List Char) : List (List Char) :=
  ((splitNl (pyStrip block)).filter (fun line => !(pyStrip line).isEmpty)).map
    (fun line => pyStrip (stripDashSpace line))

/-- The placeholder string `f"No data provided for {section}"`. -/
def placeholderFor (lbl : List Char) : List Char :=
  "No data provided for ".data ++ lbl

/-- The value `parse_log` stores for one label: the processed block when the
regex matches (or the placeholder when the processed block is empty), and the
placeholder when it does not. -/
def parseSection (content lbl : List Char) : List (List Char) :=
  match captureBlock content lbl with
  | none => [placeholderFor lbl]
  | some block =>
    let lines := processBlock block
    if lines.isEmpty then [placeholderFor lbl] else lines

/-- `parse_log` applied to already-read file content: the Python dict (keys in
insertion order) is modelled as an association list over the five labels. -/
def parse_log (content : List Char) : List (List Char × List (List Char)) :=
  sectionLabels.map (fun lbl => (lbl, parseSection content lbl))

/-- ASCII decimal digit (the regex class `\d` restricted to ASCII). -/
def isAsciiDigit (c : Char) : Bool :=
  '0' ≤ c && c ≤ '9'

/-- Attempt to match `(\d{4}-\d{2}-\d{2})\.md` at the head of `l` (the part of
the date regex after the literal `QA_Log_`); returns the captured group. The
regex has no trailing anchor, so anything may follow `.md`. -/
def matchDateMd : List Char → Option (List Char)
  | y1 :: y2 :: y3 :: y4 :: s1 :: m1 :: m2 :: s2 :: d1 :: d2 :: c1 :: c2 :: c3 :: _ =>
    if isAsciiDigit y1 && isAsciiDigit y2 && isAsciiDigit y3 && isAsciiDigit y4 &&
        s1 == '-' && isAsciiDigit m1 && isAsciiDigit m2 && s2 == '-' &&
        isAsciiDigit d1 && isAsciiDigit d2 && c1 == '.' && c2 == 'm' && c3 == 'd' then
      some [y1, y2, y3, y4, s1, m1, m2, s2, d1, d2]
    else
      none
  | _ => none

/-- Attempt to match the whole date pattern `QA_Log_(\d{4}-\d{2}-\d{2})\.md`
at the head of `l`. -/
def matchQA (l : List Char) : Option (List Char) :=
  if "QA_Log_".data.isPrefixOf l then matchDateMd (l.drop 7) else none

/-- `re.search` of the date pattern: try every start position left to right. -/
def searchDate : List Char → Option (List Char)
  | [] => none
  | c :: rest =>
    match matchQA (c :: rest) with
    | some d => some d
    | none => searchDate rest

/-- `extract_date_from_filename`, with `datetime.today().strftime('%Y-%m-%d')`
modelled by the injected parameter `today`. -/
def extract_date_from_filename (filename today : List Char) : List Char :=
  (searchDate filename).getD today

/-- The shape of a captured date group: ten characters `DDDD-DD-DD` with `D`
an ASCII digit (no validation that it is a real calendar date). -/
def dateGroupShape (d : List Char) : Prop :=
  ∃ y1 y2 y3 y4 m1 m2 d1 d2 : Char,
    d = [y1, y2, y3, y4, '-', m1, m2, '-', d1, d2] ∧
    isAsciiDigit y1 = true ∧ isAsciiDigit y2 = true ∧ isAsciiDigit y3 = true ∧
    isAsciiDigit y4 = true ∧ isAsciiDigit m1 = true ∧ isAsciiDigit m2 = true ∧
    isAsciiDigit d1 = true ∧ isAsciiDigit d2 = true

/-- A filename matches the glob `QA_Log_*.md`: exact prefix `QA_Log_`, exact
suffix `.md` (`*` matches any, possibly empty, run of characters; directory
entries contain no path separator). -/
def matchesLogPat (name : List Char) : Bool :=
  "QA_Log_".data.isPrefixOf name && ".md".data.isSuffixOf name

/-- Python string `<` (lexicographic by code point), as a `≤` test on the
character lists. -/
def lexLe : List Char → List Char → Bool
  | [], _ => true
  | _ :: _, [] => false
  | a :: as, b :: bs =>
    if a < b then true
    else if a = b then lexLe as bs
    else false

/-- Stable insertion of `x` into a descending-sorted list: `x` goes after every
earlier element that is at least as large. -/
def insertDesc (x : List Char) : List (List Char) → List (List Char)
  | [] => [x]
  | y :: ys => if lexLe x y then y :: insertDesc x ys else x :: y :: ys

/-- `files.sort(reverse=True)`: a stable descending sort (Python's sort is
stable; ties here are equal strings, so any correct descending sort agrees). -/
def sortDesc (l : List (List Char)) : List (List Char) :=
  l.foldr insertDesc []

/-- `find_latest_log`, over the list of directory entries: filter by the glob,
sort in descending lexicographic order (`files.sort(reverse=True)`) and return
the head, or `None` when nothing matched. -/
def find_latest_log (files : List (List Char)) : Option (List Char) :=
  let matched := files.filter matchesLogPat
  if matched.isEmpty then none
  else (sortDesc matched).head?

/-- `"\n".join(f"- {item}" for item in items)`. -/
def list_block (items : List (List Char)) : List Char :=
  List.intercalate "\n".data (items.map (fun it => "- ".data ++ it))

/-- Dict indexing `sections[label]` on the association-list model. The Python
code only ever indexes dicts built by `parse_log`, which always hold all five
keys, so the `getD` default is never reached in the modelled program. -/
def getSection (sections : List (List Char × List (List Char))) (lbl : List Char) :
    List (List Char) :=
  (sections.lookup lbl).getD []

/-- `generate_report`: the f-string template, with the four derived groupings. -/
def generate_report (sections : List (List Char × List (List Char)))
    (date : List Char) : List Char :=
  let key_takeaways :=
    getSection sections tasksLabel ++ getSection sections fixesLabel ++
      getSection sections obsLabel
  let progress_summary := getSection sections fixesLabel ++ getSection sections obsLabel
  let next_steps := getSection sections nextLabel
  let bugs := getSection sections bugsLabel
  "### 📣 Project Update: ".data ++ date ++
    "\n\n#### 🔑 Key Takeaways\n".data ++ list_block key_takeaways ++
    "\n\n#### 🐛 Bugs Found\n".data ++ list_block bugs ++
    "\n\n#### 📊 Progress Summary\n".data ++ list_block progress_summary ++
    "\n\n#### 🔁 Next Steps\n".data ++ list_block next_steps ++
    "\n".data

/-- The message printed when no log file matches. -/
def failMessage : List Char :=
  "❌ No QA_Log_*.md file found in this directory.".data

/-- `main`, over a model of the current directory: a list of
`(filename, contents)` entries, where `contents = none` stands for a file that
`open`/`read` cannot deliver (unreadable or undecodable). The result is the
text printed to stdout (`print` appends a newline); `Except.error` stands for
an uncaught Python exception escaping `main`. -/
def main (dir : List (List Char × Option (List Char))) (today : List Char) :
    Except Unit (List Char) :=
  match find_latest_log (dir.map Prod.fst) with
  | none => Except.ok (failMessage ++ "\n".data)
  | some logFile =>
    match (dir.lookup logFile).getD none with
    | none => Except.error ()
    | some content =>
      Except.ok (generate_report (parse_log content)
        (extract_date_from_filename logFile today) ++ "\n".data)

/-! ### Well-formed round-trip documents (for the round-trip property) -/

/-- Join lines with a terminating newline after each line. -/
def lineJoin (ls : List (List Char)) : List Char :=
  (ls.map (fun l => l ++ "\n".data)).flatten

/-- The lines of one log section: the heading line `### <label>` followed by
one bullet line `- <item>` per item. -/
def sectionLines (lbl : List Char) (items : List (List Char)) : List (List Char) :=
  ("### ".data ++ lbl) :: items.map (fun it => "- ".data ++ it)

/-- A well-formed log document: the five sections in canonical order, each
heading followed by its bullet lines, every line newline-terminated. -/
def mkDoc (t b f o n : List (List Char)) : List Char :=
  lineJoin (sectionLines tasksLabel t ++ sectionLines bugsLabel b ++
    sectionLines fixesLabel f ++ sectionLines obsLabel o ++
    sectionLines nextLabel n)

/-- A bullet item that round-trips verbatim: non-empty, newline-free, not
starting or ending with a bullet/whitespace character (so the strips return it
unchanged), and not ending with a heading string `### <label>` (so the bullet
line cannot be mistaken for a section heading by the substring search). -/
def cleanItem (it : List Char) : Prop :=
  it ≠ [] ∧ '\n' ∉ it ∧
  it.head?.all (fun c => !(isDashSpace c || pyIsSpace c)) = true ∧
  it.getLast?.all (fun c => !(isDashSpace c || pyIsSpace c)) = true ∧
  ∀ lbl ∈ sectionLabels, ¬ ("### ".data ++ lbl) <:+ it

instance cleanItemDecidable (it : List Char) : Decidable (cleanItem it) := by
  unfold cleanItem
  infer_instance

end QALog

namespace QALog

/-! ## Generic lemmas about the text primitives -/

theorem stripLeftBy_of_head (p : Char → Bool) (l : List Char)
    (h : ∀ c, l.head? = some c → p c = false) : stripLeftBy p l = l := by
  cases l with
  | nil => rfl
  | cons a as =>
    have ha : p a = false := h a rfl
    simp [stripLeftBy, List.dropWhile_cons, ha]

theorem stripRightBy_of_getLast (p : Char → Bool) (l : List Char)
    (h : ∀ c, l.getLast? = some c → p c = false) : stripRightBy p l = l := by
  have : l.reverse.dropWhile p = l.reverse := by
    have := stripLeftBy_of_head p l.reverse (by
      intro c hc
      exact h c (by rwa [List.head?_reverse] at hc))
    simpa [stripLeftBy] using this
  simp [stripRightBy, this]

theorem stripBy_of_ends (p : Char → Bool) (l : List Char)
    (h1 : ∀ c, l.head? = some c → p c = false)
    (h2 : ∀ c, l.getLast? = some c → p c = false) : stripBy p l = l := by
  rw [stripBy, stripLeftBy_of_head p l h1, stripRightBy_of_getLast p l h2]

theorem dropWhile_eq_nil_of_all (p : Char → Bool) (l : List Char)
    (h : ∀ c ∈ List.dropWhile p l, p c = true) : List.dropWhile p l = [] := by
  induction l with
  | nil => rfl
  | cons a as ih =>
    rw [List.dropWhile_cons] at h ⊢
    by_cases ha : p a = true
    · simp only [ha, if_true] at h ⊢
      exact ih h
    · simp only [eq_false_of_ne_true ha, if_false] at h
      exact absurd (h a (by simp)) ha

theorem stripBy_eq_nil_iff (p : Char → Bool) (l : List Char) :
    stripBy p l = [] ↔ ∀ c ∈ l, p c = true := by
  unfold stripBy stripRightBy stripLeftBy
  rw [List.reverse_eq_nil_iff]
  constructor
  · intro h c hc
    have hall : ∀ c ∈ (List.dropWhile p l).reverse, p c = true :=
      List.dropWhile_eq_nil_iff.mp h
    have hdrop : List.dropWhile p l = [] := by
      apply dropWhile_eq_nil_of_all
      intro c hc2
      exact hall c (List.mem_reverse.mpr hc2)
    exact List.dropWhile_eq_nil_iff.mp hdrop c hc
  · intro h
    have hdrop : List.dropWhile p l = [] := List.dropWhile_eq_nil_iff.mpr h
    simp [hdrop]

theorem mem_of_mem_stripBy (p : Char → Bool) (l : List Char) (c : Char)
    (h : c ∈ stripBy p l) : c ∈ l := by
  unfold stripBy stripRightBy stripLeftBy at h
  rw [List.mem_reverse] at h
  have h2 := (List.dropWhile_sublist (l := (List.dropWhile p l).reverse) p).mem h
  rw [List.mem_reverse] at h2
  exact (List.dropWhile_sublist p).mem h2

/-! ## Lemmas about `splitNl` -/

theorem splitNl_ne_nil (l : List Char) : splitNl l ≠ [] := by
  induction l with
  | nil => simp [splitNl]
  | cons c rest ih =>
    unfold splitNl
    split
    · simp
    · cases h : splitNl rest with
      | nil => simp
      | cons a t => simp

theorem splitNl_no_newline (s : List Char) :
    ∀ line ∈ splitNl s, '\n' ∉ line := by
  induction s with
  | nil =>
    intro line hline
    simp [splitNl] at hline
    simp [hline]
  | cons c rest ih =>
    intro line hline
    unfold splitNl at hline
    by_cases hc : c = '\n'
    · simp only [hc, if_true] at hline
      rcases List.mem_cons.mp hline with h | h
      · simp [h]
      · exact ih line h
    · simp only [if_neg hc] at hline
      cases h : splitNl rest with
      | nil => exact absurd h (splitNl_ne_nil rest)
      | cons a t =>
        rw [h] at hline
        rcases List.mem_cons.mp hline with h2 | h2
        · subst h2
          intro hmem
          rcases List.mem_cons.mp hmem with h3 | h3
          · exact hc h3.symm
          · exact ih a (by simp [h]) h3
        · exact ih line (by simp [h, h2])

theorem mem_of_mem_splitNl (s : List Char) :
    ∀ line ∈ splitNl s, ∀ c ∈ line, c ∈ s := by
  induction s with
  | nil =>
    intro line hline c hc
    simp [splitNl] at hline
    subst hline
    simp at hc
  | cons a rest ih =>
    intro line hline c hc
    unfold splitNl at hline
    by_cases ha : a = '\n'
    · simp only [ha, if_true] at hline
      rcases List.mem_cons.mp hline with h | h
      · subst h; simp at hc
      · exact List.mem_cons_of_mem _ (ih line h c hc)
    · simp only [if_neg ha] at hline
      cases h : splitNl rest with
      | nil => exact absurd h (splitNl_ne_nil rest)
      | cons b t =>
        rw [h] at hline
        rcases List.mem_cons.mp hline with h2 | h2
        · subst h2
          rcases List.mem_cons.mp hc with h3 | h3
          · simp [h3]
          · exact List.mem_cons_of_mem _ (ih b (by simp [h]) c h3)
        · exact List.mem_cons_of_mem _ (ih line (by simp [h, h2]) c hc)

theorem exists_line_of_mem (s : List Char) (c : Char) (hc : c ∈ s)
    (hne : c ≠ '\n') : ∃ line ∈ splitNl s, c ∈ line := by
  induction s with
  | nil => simp at hc
  | cons a rest ih =>
    unfold splitNl
    by_cases ha : a = '\n'
    · simp only [ha, if_true]
      rcases List.mem_cons.mp hc with h | h
      · exact absurd (h.symm ▸ ha) (by simpa using hne)
      · obtain ⟨line, hline, hcl⟩ := ih h
        exact ⟨line, List.mem_cons_of_mem _ hline, hcl⟩
    · simp only [if_neg ha]
      cases h : splitNl rest with
      | nil => exact absurd h (splitNl_ne_nil rest)
      | cons b t =>
        rcases List.mem_cons.mp hc with h2 | h2
        · exact ⟨a :: b, by simp, by simp [h2]⟩
        · obtain ⟨line, hline, hcl⟩ := ih h2
          rw [h] at hline
          rcases List.mem_cons.mp hline with h3 | h3
          · exact ⟨a :: b, by simp, by simp [h3 ▸ hcl]⟩
          · exact ⟨line, by simp [h3], hcl⟩

theorem splitNl_of_no_newline (a : List Char) (h : '\n' ∉ a) :
    splitNl a = [a] := by
  induction a with
  | nil => rfl
  | cons c rest ih =>
    have hc : c ≠ '\n' := fun hc => h (by simp [hc])
    have hrest : '\n' ∉ rest := fun hr => h (List.mem_cons_of_mem _ hr)
    unfold splitNl
    rw [if_neg hc, ih hrest]

theorem splitNl_append_newline (a r : List Char) (h : '\n' ∉ a) :
    splitNl (a ++ '\n' :: r) = a :: splitNl r := by
  induction a with
  | nil => simp [splitNl]
  | cons c rest ih =>
    have hc : c ≠ '\n' := fun hc => h (by simp [hc])
    have hrest : '\n' ∉ rest := fun hr => h (List.mem_cons_of_mem _ hr)
    show splitNl (c :: (rest ++ '\n' :: r)) = (c :: rest) :: splitNl r
    conv_lhs => rw [splitNl]
    rw [if_neg hc, ih hrest]

/-! ## Lemmas about `firstOccur` -/

theorem firstOccur_eq_some_iff (pat s : List Char) (i : Nat) :
    firstOccur pat s = some i ↔
      (pat <+: s.drop i ∧ ∀ j < i, ¬ pat <+: s.drop j) := by
  induction s generalizing i with
  | nil =>
    cases pat with
    | nil =>
      simp only [firstOccur, List.isEmpty_nil, if_true, List.drop_nil,
        List.nil_prefix, not_true, true_and]
      constructor
      · intro h
        have : i = 0 := (Option.some.inj h).symm
        subst this
        intro j hj
        omega
      · intro h
        have : i = 0 := by
          by_contra hne
          exact h 0 (Nat.pos_of_ne_zero hne)
        subst this
        rfl
    | cons p ps =>
      simp [firstOccur, List.prefix_nil]
  | cons c rest ih =>
    by_cases hp : pat <+: c :: rest
    · have hb : pat.isPrefixOf (c :: rest) = true := List.isPrefixOf_iff_prefix.mpr hp
      rw [firstOccur, if_pos hb]
      constructor
      · intro h
        have : i = 0 := (Option.some.inj h).symm
        subst this
        exact ⟨by simpa using hp, fun j hj => by omega⟩
      · rintro ⟨h1, h2⟩
        rcases Nat.eq_zero_or_pos i with h0 | h0
        · rw [h0]
        · exact absurd (by simpa using hp) (h2 0 h0)
    · have hb : ¬ pat.isPrefixOf (c :: rest) = true := by
        exact fun hb => hp (List.isPrefixOf_iff_prefix.mp hb)
      rw [firstOccur, if_neg hb]
      cases i with
      | zero =>
        simp only [List.drop_zero]
        constructor
        · intro h
          rcases Option.map_eq_some'.mp h with ⟨k, _, hk⟩
          omega
        · rintro ⟨h1, _⟩
          exact absurd h1 hp
      | succ k =>
        constructor
        · intro h
          rcases Option.map_eq_some'.mp h with ⟨m, hm, hmk⟩
          have hmk2 : m = k := by omega
          rw [hmk2] at hm
          rcases (ih k).mp hm with ⟨h1, h2⟩
          refine ⟨by simpa using h1, ?_⟩
          intro j hj
          cases j with
          | zero => simpa using hp
          | succ j' =>
            have : j' < k := by omega
            simpa using h2 j' this
        · rintro ⟨h1, h2⟩
          have hk : firstOccur pat rest = some k := by
            apply (ih k).mpr
            refine ⟨by simpa using h1, ?_⟩
            intro j hj
            have := h2 (j + 1) (by omega)
            simpa using this
          rw [hk]
          rfl

theorem firstOccur_eq_none_iff (pat s : List Char) :
    firstOccur pat s = none ↔ ∀ j, ¬ pat <+: s.drop j := by
  induction s with
  | nil =>
    cases pat with
    | nil =>
      simp [firstOccur]
    | cons p ps =>
      simp [firstOccur, List.prefix_nil]
  | cons c rest ih =>
    by_cases hp : pat <+: c :: rest
    · have hb : pat.isPrefixOf (c :: rest) = true := List.isPrefixOf_iff_prefix.mpr hp
      rw [firstOccur, if_pos hb]
      constructor
      · intro h
        simp at h
      · intro h
        exact absurd (by simpa using hp) (h 0)
    · have hb : ¬ pat.isPrefixOf (c :: rest) = true := by
        exact fun hb => hp (List.isPrefixOf_iff_prefix.mp hb)
      rw [firstOccur, if_neg hb, Option.map_eq_none', ih]
      constructor
      · intro h j
        cases j with
        | zero => simpa using hp
        | succ j' => simpa using h j'
      · intro h j
        simpa using h (j + 1)

theorem firstOccur_append_shift (pat xs ys : List Char)
    (h : ∀ i < xs.length, ¬ pat <+: (xs ++ ys).drop i) :
    firstOccur pat (xs ++ ys) = (firstOccur pat ys).map (· + xs.length) := by
  induction xs with
  | nil =>
    simp only [List.nil_append, List.length_nil]
    cases firstOccur pat ys <;> simp
  | cons c xs' ih =>
    have h0 : ¬ pat <+: c :: (xs' ++ ys) := by
      have := h 0 (by simp)
      simpa using this
    have hb : pat.isPrefixOf (c :: (xs' ++ ys)) = false := by
      rw [← Bool.not_eq_true]
      exact fun hb => h0 (List.isPrefixOf_iff_prefix.mp hb)
    show firstOccur pat (c :: (xs' ++ ys)) = _
    rw [firstOccur, if_neg (by simp [hb])]
    rw [ih (by
      intro i hi
      have := h (i + 1) (by simp; omega)
      simpa using this)]
    cases firstOccur pat ys with
    | none => rfl
    | some k =>
      simp only [Option.map_some', Option.some.injEq, List.length_cons]
      omega

theorem prefix_append_split {p a b : List Char} (h : p <+: a ++ b) :
    (p.length ≤ a.length ∧ p <+: a) ∨
      (a.length < p.length ∧ a <+: p ∧ p.drop a.length <+: b) := by
  obtain ⟨t, ht⟩ := h
  by_cases hl : p.length ≤ a.length
  · left
    refine ⟨hl, ?_⟩
    have hp : p = (a ++ b).take p.length := by
      rw [← ht, List.take_append_of_le_length (by simp), List.take_length]
    rw [hp, List.take_append_of_le_length hl]
    exact List.take_prefix _ _
  · right
    push_neg at hl
    refine ⟨hl, ?_, ?_⟩
    · have ha : a = (p ++ t).take a.length := by
        rw [ht, List.take_append_of_le_length (by simp), List.take_length]
      have heq : a = p.take a.length := by
        rw [List.take_append_of_le_length (le_of_lt hl)] at ha
        exact ha
      have htp := List.take_prefix a.length p
      rwa [← heq] at htp
    · have hdrop : (p ++ t).drop a.length = (a ++ b).drop a.length := by rw [ht]
      rw [List.drop_append_of_le_length (le_of_lt hl), List.drop_left] at hdrop
      exact ⟨t, hdrop⟩

theorem suffix_append_split {s x y : List Char} (h : s <:+ x ++ y)
    (hl : s.length ≤ y.length) : s <:+ y := by
  obtain ⟨w, hw⟩ := h
  have hlen : x.length ≤ w.length := by
    have := congrArg List.length hw
    simp [List.length_append] at this
    omega
  have := congrArg (List.drop x.length) hw
  rw [List.drop_append_of_le_length hlen, List.drop_left] at this
  exact ⟨w.drop x.length, this⟩

/-! ## Lemmas about `lexLe` and `sortDesc` -/

theorem lexLe_refl (a : List Char) : lexLe a a = true := by
  induction a with
  | nil => rfl
  | cons c cs ih =>
    unfold lexLe
    rw [if_neg (lt_irrefl c), if_pos rfl]
    exact ih

theorem lexLe_trans (a b c : List Char) (h1 : lexLe a b = true)
    (h2 : lexLe b c = true) : lexLe a c = true := by
  induction a generalizing b c with
  | nil => rfl
  | cons x xs ih =>
    cases b with
    | nil => simp [lexLe] at h1
    | cons y ys =>
      cases c with
      | nil => simp [lexLe] at h2
      | cons z zs =>
        unfold lexLe at h1 h2 ⊢
        by_cases hxy : x < y
        · by_cases hyz : y < z
          · rw [if_pos (lt_trans hxy hyz)]
          · by_cases hyz2 : y = z
            · rw [if_pos (hyz2 ▸ hxy)]
            · rw [if_neg hyz, if_neg hyz2] at h2
              exact absurd h2 (by simp)
        · by_cases hxy2 : x = y
          · subst hxy2
            rw [if_neg hxy, if_pos rfl] at h1
            by_cases hyz : x < z
            · rw [if_pos hyz]
            · by_cases hyz2 : x = z
              · subst hyz2
                rw [if_neg hyz, if_pos rfl] at h2 ⊢
                exact ih ys zs h1 h2
              · rw [if_neg hyz, if_neg hyz2] at h2
                exact absurd h2 (by simp)
          · rw [if_neg hxy, if_neg hxy2] at h1
            exact absurd h1 (by simp)

theorem lexLe_total (a b : List Char) : lexLe a b = true ∨ lexLe b a = true := by
  induction a generalizing b with
  | nil => left; rfl
  | cons x xs ih =>
    cases b with
    | nil => right; rfl
    | cons y ys =>
      rcases lt_trichotomy x y with h | h | h
      · left
        unfold lexLe
        rw [if_pos h]
      · subst h
        unfold lexLe
        rw [if_neg (lt_irrefl x), if_pos rfl, if_neg (lt_irrefl x), if_pos rfl]
        exact ih ys
      · right
        unfold lexLe
        rw [if_pos h]

theorem sortDesc_cons (a : List Char) (l : List (List Char)) :
    sortDesc (a :: l) = insertDesc a (sortDesc l) := rfl

theorem mem_insertDesc (x y : List Char) (l : List (List Char)) :
    y ∈ insertDesc x l ↔ y = x ∨ y ∈ l := by
  induction l with
  | nil => simp [insertDesc]
  | cons z zs ih =>
    unfold insertDesc
    split
    · simp only [List.mem_cons, ih]
      tauto
    · simp only [List.mem_cons]

theorem mem_sortDesc (x : List Char) (l : List (List Char)) :
    x ∈ sortDesc l ↔ x ∈ l := by
  induction l with
  | nil => simp [sortDesc]
  | cons a as ih =>
    rw [sortDesc_cons, mem_insertDesc, ih]
    simp

theorem insertDesc_ne_nil (x : List Char) (l : List (List Char)) :
    insertDesc x l ≠ [] := by
  cases l with
  | nil => simp [insertDesc]
  | cons y ys =>
    unfold insertDesc
    split <;> simp

theorem pairwise_insertDesc (x : List Char) (l : List (List Char))
    (h : List.Pairwise (fun a b => lexLe b a = true) l) :
    List.Pairwise (fun a b => lexLe b a = true) (insertDesc x l) := by
  induction l with
  | nil => simp [insertDesc]
  | cons y ys ih =>
    rcases List.pairwise_cons.mp h with ⟨hy, hys⟩
    unfold insertDesc
    split
    · rename_i hxy
      rw [List.pairwise_cons]
      refine ⟨?_, ih hys⟩
      intro z hz
      rcases (mem_insertDesc x z ys).mp hz with h2 | h2
      · exact h2 ▸ hxy
      · exact hy z h2
    · rename_i hxy
      have hyx : lexLe y x = true := by
        rcases lexLe_total x y with h2 | h2
        · exact absurd h2 hxy
        · exact h2
      rw [List.pairwise_cons]
      refine ⟨?_, h⟩
      intro z hz
      rcases List.mem_cons.mp hz with h2 | h2
      · exact h2 ▸ hyx
      · exact lexLe_trans z y x (hy z h2) hyx

theorem pairwise_sortDesc (l : List (List Char)) :
    List.Pairwise (fun a b => lexLe b a = true) (sortDesc l) := by
  induction l with
  | nil => simp [sortDesc]
  | cons a as ih =>
    rw [sortDesc_cons]
    exact pairwise_insertDesc a (sortDesc as) ih

/-! ## Lemmas about the parser pieces -/

theorem mem_dropWhile_of_not (p : Char → Bool) (l : List Char) (c : Char)
    (hc : c ∈ l) (hp : p c = false) : c ∈ List.dropWhile p l := by
  induction l with
  | nil => simp at hc
  | cons a as ih =>
    rw [List.dropWhile_cons]
    by_cases ha : p a = true
    · rw [if_pos ha]
      rcases List.mem_cons.mp hc with h | h
      · exact absurd (h ▸ ha) (by simp [hp])
      · exact ih h
    · rw [if_neg ha]
      exact hc

theorem mem_stripBy_of_not (p : Char → Bool) (l : List Char) (c : Char)
    (hc : c ∈ l) (hp : p c = false) : c ∈ stripBy p l := by
  unfold stripBy stripRightBy stripLeftBy
  rw [List.mem_reverse]
  apply mem_dropWhile_of_not p _ c _ hp
  rw [List.mem_reverse]
  exact mem_dropWhile_of_not p l c hc hp

theorem processBlock_eq_nil_iff (blk : List Char) :
    processBlock blk = [] ↔ ∀ c ∈ blk, pyIsSpace c = true := by
  unfold processBlock
  rw [List.map_eq_nil_iff, List.filter_eq_nil_iff]
  constructor
  · intro h c hc
    by_contra hws
    have hws2 : pyIsSpace c = false := by
      simpa using hws
    have hc2 : c ∈ pyStrip blk := mem_stripBy_of_not pyIsSpace blk c hc hws2
    have hcn : c ≠ '\n' := by
      intro he
      rw [he] at hws2
      simp [pyIsSpace] at hws2
    obtain ⟨line, hline, hcl⟩ := exists_line_of_mem (pyStrip blk) c hc2 hcn
    have := h line hline
    simp only [Bool.not_eq_true', Bool.not_eq_false] at this
    rw [List.isEmpty_iff] at this
    have hall := (stripBy_eq_nil_iff pyIsSpace line).mp this
    exact absurd (hall c hcl) (by simp [hws2])
  · intro h line hline
    have hstrip : pyStrip blk = [] := (stripBy_eq_nil_iff pyIsSpace blk).mpr h
    rw [hstrip] at hline
    have : line = [] := by
      simp [splitNl] at hline
      exact hline
    subst this
    simp [pyStrip, stripBy, stripLeftBy, stripRightBy]

theorem parseSection_ne_nil (content lbl : List Char) :
    parseSection content lbl ≠ [] := by
  unfold parseSection
  cases captureBlock content lbl with
  | none => simp
  | some blk =>
    simp only []
    split
    · simp
    · rename_i h
      exact fun he => h (by rw [he]; rfl)

theorem parse_log_map_fst (content : List Char) :
    (parse_log content).map Prod.fst = sectionLabels := rfl

theorem lookup_parse_log (content lbl : List Char) (h : lbl ∈ sectionLabels) :
    (parse_log content).lookup lbl = some (parseSection content lbl) := by
  simp only [sectionLabels, List.mem_cons, List.not_mem_nil, or_false] at h
  rcases h with rfl | rfl | rfl | rfl | rfl <;> rfl

/-! ## Claim C1 -/

/-- C1 fails as stated: on the text `"### ✅ Tasks Done\n-"` the heading is
present and the captured block `"-"` yields zero non-empty lines after
stripping (the only line strips to the empty string), yet the stored value is
`[""]`, not the placeholder: the code's filter tests the line before the
bullet-marker strip. -/
theorem claim1_counterexample :
    captureBlock "### ✅ Tasks Done\n-".data tasksLabel = some "-".data ∧
    processBlock "-".data = [[]] ∧
    (∀ l ∈ parseSection "### ✅ Tasks Done\n-".data tasksLabel, l = []) ∧
    (parse_log "### ✅ Tasks Done\n-".data).lookup tasksLabel = some [[]] ∧
    [[]] ≠ [placeholderFor tasksLabel] := by
  refine ⟨by decide, by decide, ?_, by decide, by decide⟩
  intro l hl
  have : parseSection "### ✅ Tasks Done\n-".data tasksLabel = [[]] := by decide
  rw [this] at hl
  simpa using hl

/-- C1 (amended): for every input text `parse_log` returns exactly the five
fixed keys in order, each mapped to a non-empty sequence; whenever a label's
heading text occurs nowhere in the input, or occurs but the captured block
consists entirely of whitespace, that label's value is the single placeholder.
(A block whose lines contain non-whitespace characters but strip to empty —
e.g. `"-"` — is not the placeholder case; see the counterexample.) -/
theorem claim1_parse_log_invariant (content : List Char) :
    (parse_log content).map Prod.fst = sectionLabels ∧
    (∀ pr ∈ parse_log content, pr.2 ≠ []) ∧
    (∀ lbl ∈ sectionLabels,
      ((∀ i, ¬ headingText lbl <+: content.drop i) →
        (parse_log content).lookup lbl = some [placeholderFor lbl]) ∧
      (∀ blk, captureBlock content lbl = some blk →
        (∀ c ∈ blk, pyIsSpace c = true) →
        (parse_log content).lookup lbl = some [placeholderFor lbl])) := by
  refine ⟨parse_log_map_fst content, ?_, ?_⟩
  · intro pr hpr
    unfold parse_log at hpr
    rcases List.mem_map.mp hpr with ⟨lbl, _, heq⟩
    rw [← heq]
    exact parseSection_ne_nil content lbl
  · intro lbl hlbl
    constructor
    · intro hno
      have hfo : firstOccur (headingText lbl) content = none :=
        (firstOccur_eq_none_iff _ _).mpr hno
      have hcap : captureBlock content lbl = none := by
        unfold captureBlock
        rw [hfo]
      have hps : parseSection content lbl = [placeholderFor lbl] := by
        unfold parseSection
        rw [hcap]
      rw [lookup_parse_log content lbl hlbl, hps]
    · intro blk hblk hws
      have hpb : processBlock blk = [] := (processBlock_eq_nil_iff blk).mpr hws
      have hps : parseSection content lbl = [placeholderFor lbl] := by
        unfold parseSection
        rw [hblk]
        simp [hpb]
      rw [lookup_parse_log content lbl hlbl, hps]

/-- Witness for C1 (amended), at the concrete text `"### ✅ Tasks Done\n  "`:
the captured block is all-whitespace, so the value is the placeholder. -/
theorem claim1_witness :
    (parse_log "### ✅ Tasks Done\n  ".data).lookup tasksLabel =
      some [placeholderFor tasksLabel] :=
  ((claim1_parse_log_invariant "### ✅ Tasks Done\n  ".data).2.2 tasksLabel
      (by decide)).2 "  ".data (by decide) (by decide)

/-! ## Claim C4 -/

/-- C4 fails as stated: in the block `"-- note\n---"` the line `"---"` becomes
empty after stripping over the character set {'-', ' '}, yet it is NOT
discarded — it survives as the empty string, because the code's filter
(`if line.strip()`) tests the line before the bullet-marker strip. The
positive part (`"-- note"` → `"note"`) holds and is listed alongside. -/
theorem claim4_counterexample :
    processBlock "-- note\n---".data = ["note".data, []] ∧
    [] ∈ processBlock "-- note\n---".data ∧
    pyStrip (stripDashSpace "---".data) = [] := by
  exact ⟨by decide, by decide, by decide⟩

/-- C4 (amended): each captured block is whitespace-stripped as a whole, split
on newlines; lines consisting entirely of whitespace are discarded; every
other line is stripped over the character set {'-', ' '} from both ends and
then whitespace-stripped, and is kept even if this leaves the empty string.
In particular `"-- note"` becomes `"note"` and a trailing `" - "` is removed. -/
theorem claim4_strip_spec :
    (∀ blk : List Char,
      processBlock blk =
        ((splitNl (pyStrip blk)).filter (fun l => !(l.all pyIsSpace))).map
          (fun l => pyStrip (stripDashSpace l))) ∧
    pyStrip (stripDashSpace "-- note".data) = "note".data ∧
    pyStrip (stripDashSpace "a - ".data) = "a".data := by
  refine ⟨?_, by decide, by decide⟩
  intro blk
  have hpred : ∀ l : List Char, (!(pyStrip l).isEmpty) = (!(l.all pyIsSpace)) := by
    intro l
    congr 1
    rw [Bool.eq_iff_iff, List.isEmpty_iff, List.all_eq_true]
    exact stripBy_eq_nil_iff pyIsSpace l
  unfold processBlock
  rw [List.filter_congr (fun x _ => hpred x)]

/-! ## Claim C3 -/

/-- C3 fails as stated: on `"x### ✅ Tasks Done\n- a"` no line of the text is
the exact heading line `"### ✅ Tasks Done"` (the only candidate line starts
with `x`), yet the parser captures `["a"]` for that label: `re.search` finds
the heading text mid-line, without anchoring it to a line start. -/
theorem claim3_counterexample :
    (∀ line ∈ splitNl "x### ✅ Tasks Done\n- a".data,
      line ≠ "### ".data ++ tasksLabel) ∧
    (parse_log "x### ✅ Tasks Done\n- a".data).lookup tasksLabel =
      some ["a".data] ∧
    ["a".data] ≠ [placeholderFor tasksLabel] := by
  exact ⟨by decide, by decide, by decide⟩

/-- C3 (amended): the section for a label is captured from the first
occurrence of the text `"### <label>"` immediately followed by a newline,
wherever that occurrence lies in the input (not necessarily at the start of a
line); the captured block then runs to the first following occurrence of
`"\n###"` (the next line beginning with `###`), or to end of text if there is
none; only the first heading occurrence is used. -/
theorem claim3_capture_spec (content lbl : List Char) :
    (captureBlock content lbl = none ↔
      ∀ i, ¬ headingText lbl <+: content.drop i) ∧
    (∀ blk, captureBlock content lbl = some blk →
      ∃ i, headingText lbl <+: content.drop i ∧
        (∀ j < i, ¬ headingText lbl <+: content.drop j) ∧
        ((blk = content.drop (i + (headingText lbl).length) ∧
            ∀ j, ¬ lookaheadText <+:
              (content.drop (i + (headingText lbl).length)).drop j) ∨
          (∃ k, blk = (content.drop (i + (headingText lbl).length)).take k ∧
            lookaheadText <+:
              (content.drop (i + (headingText lbl).length)).drop k ∧
            ∀ j < k, ¬ lookaheadText <+:
              (content.drop (i + (headingText lbl).length)).drop j))) := by
  cases hfo : firstOccur (headingText lbl) content with
  | none =>
    have hcap : captureBlock content lbl = none := by
      unfold captureBlock
      simp only [hfo]
    refine ⟨?_, ?_⟩
    · rw [hcap]
      exact iff_of_true rfl ((firstOccur_eq_none_iff _ _).mp hfo)
    · intro blk hblk
      rw [hcap] at hblk
      exact absurd hblk (by simp)
  | some i =>
    rcases (firstOccur_eq_some_iff _ _ _).mp hfo with ⟨h1, h2⟩
    cases hlo : firstOccur lookaheadText
        (content.drop (i + (headingText lbl).length)) with
    | none =>
      have hcap : captureBlock content lbl =
          some (content.drop (i + (headingText lbl).length)) := by
        unfold captureBlock
        simp only [hfo, hlo]
      refine ⟨?_, ?_⟩
      · rw [hcap]
        exact iff_of_false (by simp) (fun hall => hall i h1)
      · intro blk hblk
        rw [hcap] at hblk
        exact ⟨i, h1, h2, Or.inl ⟨(Option.some.inj hblk).symm,
          (firstOccur_eq_none_iff _ _).mp hlo⟩⟩
    | some k =>
      have hcap : captureBlock content lbl =
          some ((content.drop (i + (headingText lbl).length)).take k) := by
        unfold captureBlock
        simp only [hfo, hlo]
      rcases (firstOccur_eq_some_iff _ _ _).mp hlo with ⟨g1, g2⟩
      refine ⟨?_, ?_⟩
      · rw [hcap]
        exact iff_of_false (by simp) (fun hall => hall i h1)
      · intro blk hblk
        rw [hcap] at hblk
        exact ⟨i, h1, h2, Or.inr ⟨k, (Option.some.inj hblk).symm, g1, g2⟩⟩

/-- Witness for C3 (amended) at `"x### ✅ Tasks Done\n- a"`: the capture for
the Tasks label exists and satisfies the first-occurrence characterization. -/
theorem claim3_witness :
    ∃ i, headingText tasksLabel <+: "x### ✅ Tasks Done\n- a".data.drop i ∧
      (∀ j < i, ¬ headingText tasksLabel <+: "x### ✅ Tasks Done\n- a".data.drop j) ∧
      ((("- a".data : List Char) =
          "x### ✅ Tasks Done\n- a".data.drop (i + (headingText tasksLabel).length) ∧
          ∀ j, ¬ lookaheadText <+:
            ("x### ✅ Tasks Done\n- a".data.drop
              (i + (headingText tasksLabel).length)).drop j) ∨
        (∃ k, ("- a".data : List Char) =
            ("x### ✅ Tasks Done\n- a".data.drop
              (i + (headingText tasksLabel).length)).take k ∧
          lookaheadText <+:
            ("x### ✅ Tasks Done\n- a".data.drop
              (i + (headingText tasksLabel).length)).drop k ∧
          ∀ j < k, ¬ lookaheadText <+:
            ("x### ✅ Tasks Done\n- a".data.drop
              (i + (headingText tasksLabel).length)).drop j)) :=
  (claim3_capture_spec "x### ✅ Tasks Done\n- a".data tasksLabel).2
    "- a".data (by decide)

/-! ## Claim C2 -/

theorem sortDesc_eq_nil_iff (l : List (List Char)) : sortDesc l = [] ↔ l = [] := by
  cases l with
  | nil => simp [sortDesc]
  | cons a as =>
    rw [sortDesc_cons]
    simp only [List.cons_ne_nil, iff_false]
    exact insertDesc_ne_nil a (sortDesc as)

theorem matchesLogPat_iff (f : List Char) :
    matchesLogPat f = true ↔ ∃ mid, f = "QA_Log_".data ++ mid ++ ".md".data := by
  unfold matchesLogPat
  rw [Bool.and_eq_true, List.isPrefixOf_iff_prefix, List.isSuffixOf_iff_suffix]
  constructor
  · rintro ⟨⟨r, hr⟩, hsuf⟩
    by_cases hlen : 3 ≤ r.length
    · have hsr : ".md".data <:+ r := by
        apply suffix_append_split (x := "QA_Log_".data) (y := r)
        · rw [hr]
          exact hsuf
        · simpa using hlen
      obtain ⟨mid, hmid⟩ := hsr
      refine ⟨mid, ?_⟩
      rw [← hr, ← hmid, List.append_assoc]
    · exfalso
      have hdrop := List.suffix_iff_eq_drop.mp hsuf
      rw [← hr] at hdrop
      rcases r with _ | ⟨a, _ | ⟨b, _ | ⟨c, r2⟩⟩⟩
      · exact absurd hdrop (by decide)
      · injection hdrop with h1 _
        exact absurd h1 (by decide)
      · injection hdrop with h1 _
        exact absurd h1 (by decide)
      · exact hlen (by simp)
  · rintro ⟨mid, rfl⟩
    exact ⟨⟨mid ++ ".md".data, by simp⟩, ⟨"QA_Log_".data ++ mid, by simp⟩⟩

/-- C2: the locator considers exactly the filenames with prefix `QA_Log_` and
suffix `.md` (equivalently, of the shape `QA_Log_<mid>.md`); it returns `none`
(absence, not failure) exactly when no filename matches, and otherwise some
matching filename from the directory that is lexicographically greatest
(by code-point comparison over the full filename) among all matches. -/
theorem claim2_locator_spec (files : List (List Char)) :
    (find_latest_log files = none ↔ ∀ f ∈ files, matchesLogPat f = false) ∧
    (∀ y, find_latest_log files = some y →
      y ∈ files ∧ matchesLogPat y = true ∧
      ∀ x ∈ files, matchesLogPat x = true → lexLe x y = true) ∧
    (∀ f, matchesLogPat f = true ↔
      ∃ mid, f = "QA_Log_".data ++ mid ++ ".md".data) := by
  have hdef : find_latest_log files =
      if (files.filter matchesLogPat).isEmpty = true then none
      else (sortDesc (files.filter matchesLogPat)).head? := rfl
  refine ⟨?_, ?_, fun f => matchesLogPat_iff f⟩
  · rw [hdef]
    by_cases hm : (files.filter matchesLogPat).isEmpty = true
    · rw [if_pos hm]
      rw [List.isEmpty_iff, List.filter_eq_nil_iff] at hm
      simp only [true_iff]
      intro f hf
      have := hm f hf
      simpa using this
    · rw [if_neg hm]
      rw [List.isEmpty_iff] at hm
      constructor
      · intro h
        exfalso
        rw [List.head?_eq_none_iff, sortDesc_eq_nil_iff] at h
        exact hm h
      · intro h
        exfalso
        apply hm
        rw [List.filter_eq_nil_iff]
        intro a ha
        simp [h a ha]
  · intro y hy
    rw [hdef] at hy
    by_cases hm : (files.filter matchesLogPat).isEmpty = true
    · rw [if_pos hm] at hy
      exact absurd hy (by simp)
    · rw [if_neg hm] at hy
      cases hs : sortDesc (files.filter matchesLogPat) with
      | nil =>
        rw [hs] at hy
        exact absurd hy (by simp)
      | cons h t =>
        rw [hs] at hy
        have hyh : y = h := (Option.some.inj hy).symm
        have hymem : y ∈ files.filter matchesLogPat := by
          rw [← mem_sortDesc, hs]
          simp [hyh]
        rcases List.mem_filter.mp hymem with ⟨hyf, hyp⟩
        refine ⟨hyf, hyp, ?_⟩
        intro x hx hxp
        have hxmem : x ∈ sortDesc (files.filter matchesLogPat) := by
          rw [mem_sortDesc]
          exact List.mem_filter.mpr ⟨hx, hxp⟩
        rw [hs] at hxmem
        rcases List.mem_cons.mp hxmem with h2 | h2
        · rw [h2, hyh]
          exact lexLe_refl h
        · have hp := pairwise_sortDesc (files.filter matchesLogPat)
          rw [hs] at hp
          rw [hyh]
          exact (List.pairwise_cons.mp hp).1 x h2

/-- Witness for C2 at the spec's Example 5 directory (plus a non-matching
file): the locator picks `QA_Log_2024-02-15.md` and it dominates all matches. -/
theorem claim2_witness :
    ("QA_Log_2024-02-15.md".data ∈
        ["QA_Log_2024-01-01.md".data, "notes.txt".data,
          "QA_Log_2024-02-15.md".data] ∧
      matchesLogPat "QA_Log_2024-02-15.md".data = true ∧
      ∀ x ∈ ["QA_Log_2024-01-01.md".data, "notes.txt".data,
          "QA_Log_2024-02-15.md".data],
        matchesLogPat x = true → lexLe x "QA_Log_2024-02-15.md".data = true) :=
  (claim2_locator_spec
      ["QA_Log_2024-01-01.md".data, "notes.txt".data,
        "QA_Log_2024-02-15.md".data]).2.1 "QA_Log_2024-02-15.md".data (by decide)

/-! ## Claims C5 and C9: the date extractor -/

theorem matchDateMd_some (l d : List Char) (h : matchDateMd l = some d) :
    dateGroupShape d ∧ ∃ post, l = d ++ (".md".data ++ post) := by
  rcases l with _ | ⟨y1, _ | ⟨y2, _ | ⟨y3, _ | ⟨y4, _ | ⟨s1, _ | ⟨m1, _ | ⟨m2, _ |
    ⟨s2, _ | ⟨d1, _ | ⟨d2, _ | ⟨c1, _ | ⟨c2, _ | ⟨c3, rest⟩⟩⟩⟩⟩⟩⟩⟩⟩⟩⟩⟩⟩
  all_goals try exact Option.noConfusion h
  simp only [matchDateMd] at h
  split at h
  case isTrue hg =>
    have hd := Option.some.inj h
    simp only [Bool.and_eq_true, beq_iff_eq] at hg
    obtain ⟨⟨⟨⟨⟨⟨⟨⟨⟨⟨⟨⟨h1, h2⟩, h3⟩, h4⟩, hs1⟩, h5⟩, h6⟩, hs2⟩, h7⟩, h8⟩, hc1⟩,
      hc2⟩, hc3⟩ := hg
    subst hs1 hs2 hc1 hc2 hc3
    refine ⟨⟨y1, y2, y3, y4, m1, m2, d1, d2, hd.symm, h1, h2, h3, h4, h5, h6, h7, h8⟩,
      rest, ?_⟩
    rw [← hd]
    rfl
  case isFalse => exact Option.noConfusion h

theorem matchDateMd_of_shape (d post : List Char) (h : dateGroupShape d) :
    matchDateMd (d ++ (".md".data ++ post)) = some d := by
  obtain ⟨y1, y2, y3, y4, m1, m2, d1, d2, rfl, h1, h2, h3, h4, h5, h6, h7, h8⟩ := h
  show matchDateMd (y1 :: y2 :: y3 :: y4 :: '-' :: m1 :: m2 :: '-' :: d1 :: d2 ::
    '.' :: 'm' :: 'd' :: post) = _
  simp [matchDateMd, h1, h2, h3, h4, h5, h6, h7, h8]

theorem matchQA_some_iff (l d : List Char) :
    matchQA l = some d ↔
      (dateGroupShape d ∧
        ∃ post, l = "QA_Log_".data ++ (d ++ (".md".data ++ post))) := by
  unfold matchQA
  constructor
  · intro h
    split at h
    case isTrue hp =>
      obtain ⟨r, hr⟩ := List.isPrefixOf_iff_prefix.mp hp
      have hdr : l.drop 7 = r := by
        rw [← hr]
        rfl
      rw [hdr] at h
      obtain ⟨hshape, post, hpost⟩ := matchDateMd_some r d h
      exact ⟨hshape, post, by rw [← hr, hpost]⟩
    case isFalse => exact Option.noConfusion h
  · rintro ⟨hshape, post, rfl⟩
    have hp : "QA_Log_".data.isPrefixOf
        ("QA_Log_".data ++ (d ++ (".md".data ++ post))) = true :=
      List.isPrefixOf_iff_prefix.mpr ⟨d ++ (".md".data ++ post), rfl⟩
    rw [if_pos hp]
    have hdrop : ("QA_Log_".data ++ (d ++ (".md".data ++ post))).drop 7 =
        d ++ (".md".data ++ post) := rfl
    rw [hdrop]
    exact matchDateMd_of_shape d post hshape

theorem searchDate_eq_none_iff (s : List Char) :
    searchDate s = none ↔ ∀ i, matchQA (s.drop i) = none := by
  induction s with
  | nil =>
    constructor
    · intro _ i
      rw [List.drop_nil]
      rfl
    · intro _
      rfl
  | cons c rest ih =>
    have hstep : searchDate (c :: rest) =
        (match matchQA (c :: rest) with
          | some d2 => some d2
          | none => searchDate rest) := rfl
    cases hm : matchQA (c :: rest) with
    | some d2 =>
      rw [hm] at hstep
      have hs : searchDate (c :: rest) = some d2 := hstep
      rw [hs]
      constructor
      · intro h2
        exact Option.noConfusion h2
      · intro h2
        have h3 := h2 0
        rw [List.drop_zero] at h3
        rw [h3] at hm
        exact Option.noConfusion hm
    | none =>
      rw [hm] at hstep
      have hs : searchDate (c :: rest) = searchDate rest := hstep
      rw [hs, ih]
      constructor
      · intro h i
        cases i with
        | zero => simpa using hm
        | succ j => simpa using h j
      · intro h j
        simpa using h (j + 1)

theorem searchDate_eq_some (s d : List Char) (h : searchDate s = some d) :
    ∃ i, matchQA (s.drop i) = some d ∧ ∀ j < i, matchQA (s.drop j) = none := by
  induction s with
  | nil => exact Option.noConfusion h
  | cons c rest ih =>
    have hstep : searchDate (c :: rest) =
        (match matchQA (c :: rest) with
          | some d2 => some d2
          | none => searchDate rest) := rfl
    cases hm : matchQA (c :: rest) with
    | some d2 =>
      rw [hm] at hstep
      have hs : searchDate (c :: rest) = some d2 := hstep
      rw [hs] at h
      refine ⟨0, ?_, ?_⟩
      · rw [List.drop_zero, hm, Option.some.inj h]
      · intro j hj
        omega
    | none =>
      rw [hm] at hstep
      have hs : searchDate (c :: rest) = searchDate rest := hstep
      rw [hs] at h
      obtain ⟨i, hi1, hi2⟩ := ih h
      refine ⟨i + 1, by simpa using hi1, ?_⟩
      intro j hj
      cases j with
      | zero => simpa using hm
      | succ j2 => simpa using hi2 j2 (by omega)

theorem searchDate_of_first (s d : List Char) (i : Nat)
    (h1 : matchQA (s.drop i) = some d)
    (h2 : ∀ j < i, matchQA (s.drop j) = none) : searchDate s = some d := by
  induction s generalizing i with
  | nil =>
    rw [List.drop_nil] at h1
    exact absurd h1 (by intro hx; exact Option.noConfusion hx)
  | cons c rest ih =>
    have hstep : searchDate (c :: rest) =
        (match matchQA (c :: rest) with
          | some d2 => some d2
          | none => searchDate rest) := rfl
    cases i with
    | zero =>
      rw [List.drop_zero] at h1
      rw [h1] at hstep
      exact hstep
    | succ i2 =>
      have hm : matchQA (c :: rest) = none := by
        have := h2 0 (by omega)
        simpa using this
      rw [hm] at hstep
      have hs : searchDate (c :: rest) = searchDate rest := hstep
      rw [hs]
      apply ih i2
      · simpa using h1
      · intro j hj
        have := h2 (j + 1) (by omega)
        simpa using this

/-- C5: `extract_date_from_filename` returns the captured `YYYY-MM-DD`
substring verbatim — the date group of the leftmost occurrence of the pattern
`QA_Log_<4 digits>-<2 digits>-<2 digits>.md` in the filename, with no calendar
validation — and otherwise the current local date (modelled by the injected
`today`, which the Python code produces pre-formatted as `YYYY-MM-DD`);
in particular `QA_Log_2024-03-01.md` yields `2024-03-01`. -/
theorem claim5_extract_date_spec (fn today : List Char) :
    ((¬ ∃ pre d post, dateGroupShape d ∧
        fn = pre ++ ("QA_Log_".data ++ (d ++ (".md".data ++ post)))) →
      extract_date_from_filename fn today = today) ∧
    (∀ pre d post, dateGroupShape d →
      fn = pre ++ ("QA_Log_".data ++ (d ++ (".md".data ++ post))) →
      (∀ pre2 d2 post2, dateGroupShape d2 →
        fn = pre2 ++ ("QA_Log_".data ++ (d2 ++ (".md".data ++ post2))) →
        pre.length ≤ pre2.length) →
      extract_date_from_filename fn today = d) ∧
    extract_date_from_filename "QA_Log_2024-03-01.md".data today =
      "2024-03-01".data := by
  refine ⟨?_, ?_, ?_⟩
  · intro hno
    cases hsd : searchDate fn with
    | none =>
      unfold extract_date_from_filename
      rw [hsd]
      rfl
    | some d =>
      exfalso
      obtain ⟨i, hi1, _⟩ := searchDate_eq_some fn d hsd
      obtain ⟨hshape, post, hpost⟩ := (matchQA_some_iff _ d).mp hi1
      refine hno ⟨fn.take i, d, post, hshape, ?_⟩
      rw [← hpost]
      exact (List.take_append_drop i fn).symm
  · intro pre d post hshape hfn hmin
    have hq : matchQA (fn.drop pre.length) = some d := by
      have hdrop : fn.drop pre.length =
          "QA_Log_".data ++ (d ++ (".md".data ++ post)) := by
        rw [hfn]
        exact List.drop_left pre _
      rw [hdrop]
      exact (matchQA_some_iff _ d).mpr ⟨hshape, post, rfl⟩
    have hnone : ∀ j < pre.length, matchQA (fn.drop j) = none := by
      intro j hj
      cases hmj : matchQA (fn.drop j) with
      | none => rfl
      | some d2 =>
        exfalso
        obtain ⟨hshape2, post2, hpost2⟩ := (matchQA_some_iff _ d2).mp hmj
        have hfn2 : fn = fn.take j ++
            ("QA_Log_".data ++ (d2 ++ (".md".data ++ post2))) := by
          rw [← hpost2]
          exact (List.take_append_drop j fn).symm
        have := hmin (fn.take j) d2 post2 hshape2 hfn2
        have hlen : (fn.take j).length ≤ j := by
          rw [List.length_take]
          omega
        omega
    have hsd : searchDate fn = some d := searchDate_of_first fn d pre.length hq hnone
    unfold extract_date_from_filename
    rw [hsd]
    rfl
  · have hsd : searchDate "QA_Log_2024-03-01.md".data = some "2024-03-01".data := by
      decide
    unfold extract_date_from_filename
    rw [hsd]
    rfl

/-- Witness for C5 at `QA_Log_2024-03-01.md` (spec Example 1): the leftmost
(here: only) occurrence starts at offset 0 and the captured group is returned
verbatim. -/
theorem claim5_witness :
    extract_date_from_filename "QA_Log_2024-03-01.md".data "1999-01-01".data =
      "2024-03-01".data :=
  (claim5_extract_date_spec "QA_Log_2024-03-01.md".data "1999-01-01".data).2.1
    [] "2024-03-01".data []
    ⟨'2', '0', '2', '4', '0', '3', '0', '1', by decide, by decide, by decide,
      by decide, by decide, by decide, by decide, by decide, by decide⟩
    (by decide)
    (fun _ _ _ _ _ => Nat.zero_le _)

/-- C9: date extraction is an unanchored substring search: whenever the
filename merely contains `QA_Log_` + 4 digits + `-` + 2 digits + `-` +
2 digits + `.md` anywhere inside it, `extract_date_from_filename` returns the
date group of the first (leftmost) such occurrence rather than falling back
to the current date. -/
theorem claim9_embedded_date (fn today : List Char)
    (h : ∃ pre d post, dateGroupShape d ∧
      fn = pre ++ ("QA_Log_".data ++ (d ++ (".md".data ++ post)))) :
    ∃ pre d post, dateGroupShape d ∧
      fn = pre ++ ("QA_Log_".data ++ (d ++ (".md".data ++ post))) ∧
      extract_date_from_filename fn today = d ∧
      (∀ pre2 d2 post2, dateGroupShape d2 →
        fn = pre2 ++ ("QA_Log_".data ++ (d2 ++ (".md".data ++ post2))) →
        pre.length ≤ pre2.length) := by
  obtain ⟨pre0, d0, post0, hshape0, hfn0⟩ := h
  cases hsd : searchDate fn with
  | none =>
    exfalso
    have hall := (searchDate_eq_none_iff fn).mp hsd
    have hq : matchQA (fn.drop pre0.length) = some d0 := by
      have hdrop : fn.drop pre0.length =
          "QA_Log_".data ++ (d0 ++ (".md".data ++ post0)) := by
        rw [hfn0]
        exact List.drop_left pre0 _
      rw [hdrop]
      exact (matchQA_some_iff _ d0).mpr ⟨hshape0, post0, rfl⟩
    rw [hall pre0.length] at hq
    exact Option.noConfusion hq
  | some d =>
    obtain ⟨i, hi1, hi2⟩ := searchDate_eq_some fn d hsd
    obtain ⟨hshape, post, hpost⟩ := (matchQA_some_iff _ d).mp hi1
    refine ⟨fn.take i, d, post, hshape, ?_, ?_, ?_⟩
    · rw [← hpost]
      exact (List.take_append_drop i fn).symm
    · unfold extract_date_from_filename
      rw [hsd]
      rfl
    · intro pre2 d2 post2 hshape2 hfn2
      have hq2 : matchQA (fn.drop pre2.length) = some d2 := by
        have hdrop : fn.drop pre2.length =
            "QA_Log_".data ++ (d2 ++ (".md".data ++ post2)) := by
          rw [hfn2]
          exact List.drop_left pre2 _
        rw [hdrop]
        exact (matchQA_some_iff _ d2).mpr ⟨hshape2, post2, rfl⟩
      have hile : i ≤ pre2.length := by
        by_contra hlt
        rw [hi2 pre2.length (by omega)] at hq2
        exact Option.noConfusion hq2
      have : (fn.take i).length ≤ i := by
        rw [List.length_take]
        omega
      omega

/-- Witness for C9 at `backup_QA_Log_2024-03-01.md.old`: the pattern occurs
embedded mid-filename, and the embedded date is returned instead of `today`. -/
theorem claim9_witness :
    ∃ pre d post, dateGroupShape d ∧
      "backup_QA_Log_2024-03-01.md.old".data =
        pre ++ ("QA_Log_".data ++ (d ++ (".md".data ++ post))) ∧
      extract_date_from_filename "backup_QA_Log_2024-03-01.md.old".data
        "1999-01-01".data = d ∧
      (∀ pre2 d2 post2, dateGroupShape d2 →
        "backup_QA_Log_2024-03-01.md.old".data =
          pre2 ++ ("QA_Log_".data ++ (d2 ++ (".md".data ++ post2))) →
        pre.length ≤ pre2.length) :=
  claim9_embedded_date "backup_QA_Log_2024-03-01.md.old".data "1999-01-01".data
    ⟨"backup_".data, "2024-03-01".data, ".old".data,
      ⟨'2', '0', '2', '4', '0', '3', '0', '1', by decide, by decide, by decide,
        by decide, by decide, by decide, by decide, by decide, by decide⟩,
      by decide⟩

/-! ## Claims C6 and C10: the renderer -/

theorem list_block_singleton (x : List Char) :
    list_block [x] = "- ".data ++ x := by
  simp [list_block, List.intercalate, List.intersperse]

theorem list_block_cons_cons (x y : List Char) (l : List (List Char)) :
    list_block (x :: y :: l) =
      ("- ".data ++ x) ++ "\n".data ++ list_block (y :: l) := by
  simp [list_block, List.intercalate, List.intersperse]

theorem splitNl_list_block (items : List (List Char)) (hne : items ≠ [])
    (hnl : ∀ it ∈ items, '\n' ∉ it) :
    splitNl (list_block items) = items.map (fun it => "- ".data ++ it) := by
  induction items with
  | nil => exact absurd rfl hne
  | cons a rest ih =>
    have hnoa : '\n' ∉ "- ".data ++ a := by
      intro hmem
      rcases List.mem_append.mp hmem with h | h
      · exact absurd h (by decide)
      · exact hnl a (by simp) h
    cases rest with
    | nil =>
      rw [list_block_singleton, splitNl_of_no_newline ("- ".data ++ a) hnoa]
      rfl
    | cons b t =>
      rw [list_block_cons_cons]
      have hsh : ("- ".data ++ a) ++ "\n".data ++ list_block (b :: t) =
          ("- ".data ++ a) ++ ('\n' :: list_block (b :: t)) := by
        simp [List.append_assoc]
      rw [hsh, splitNl_append_newline ("- ".data ++ a) (list_block (b :: t)) hnoa]
      rw [ih (by simp) (fun it hit => hnl it (by simp [hit]))]
      rfl

/-- The body of `generate_report` on the canonical five-key dict: the lookups
resolve to the five stored values and assemble the fixed template. -/
theorem generate_report_canonical (t b f o n : List (List Char))
    (date : List Char) :
    generate_report [(tasksLabel, t), (bugsLabel, b), (fixesLabel, f),
        (obsLabel, o), (nextLabel, n)] date =
      "### 📣 Project Update: ".data ++ date ++
        "\n\n#### 🔑 Key Takeaways\n".data ++ list_block (t ++ f ++ o) ++
        "\n\n#### 🐛 Bugs Found\n".data ++ list_block b ++
        "\n\n#### 📊 Progress Summary\n".data ++ list_block (f ++ o) ++
        "\n\n#### 🔁 Next Steps\n".data ++ list_block n ++
        "\n".data := rfl

/-- C6: on every ParsedLog (the five section values, under the five fixed
keys) and date string, the renderer produces exactly the fixed template with
Key Takeaways = Tasks Done ++ Fixes Verified ++ Observations (in that order),
Progress Summary = Fixes Verified ++ Observations, Bugs and Next Steps as-is;
and each bulleted block is one line `- <item>` per item, newline-joined (no
trailing blank line beyond the template's own spacing). -/
theorem claim6_render_spec (t b f o n : List (List Char)) (date : List Char) :
    (generate_report [(tasksLabel, t), (bugsLabel, b), (fixesLabel, f),
        (obsLabel, o), (nextLabel, n)] date =
      "### 📣 Project Update: ".data ++ date ++
        "\n\n#### 🔑 Key Takeaways\n".data ++ list_block (t ++ f ++ o) ++
        "\n\n#### 🐛 Bugs Found\n".data ++ list_block b ++
        "\n\n#### 📊 Progress Summary\n".data ++ list_block (f ++ o) ++
        "\n\n#### 🔁 Next Steps\n".data ++ list_block n ++
        "\n".data) ∧
    (∀ items : List (List Char), items ≠ [] → (∀ it ∈ items, '\n' ∉ it) →
      splitNl (list_block items) = items.map (fun it => "- ".data ++ it)) :=
  ⟨generate_report_canonical t b f o n date,
    fun items hne hnl => splitNl_list_block items hne hnl⟩

/-- Witness for C6 at the spec's Example 3 bug list: the bulleted block has
one `- <item>` line per item. -/
theorem claim6_witness :
    splitNl (list_block ["Crash on save".data, "Typo in UI".data]) =
      ["Crash on save".data, "Typo in UI".data].map
        (fun it => "- ".data ++ it) :=
  (claim6_render_spec [] [] [] [] [] []).2
    ["Crash on save".data, "Typo in UI".data] (by simp) (by decide)

theorem list_block_append_last (xs : List (List Char)) (x : List Char) :
    ∃ q, list_block (xs ++ [x]) = q ++ ("- ".data ++ x) := by
  induction xs with
  | nil =>
    refine ⟨[], ?_⟩
    rw [List.nil_append, list_block_singleton, List.nil_append]
  | cons a rest ih =>
    obtain ⟨q, hq⟩ := ih
    cases rest with
    | nil =>
      refine ⟨("- ".data ++ a) ++ "\n".data, ?_⟩
      rw [show (([a] : List (List Char)) ++ [x]) = a :: x :: [] from rfl,
        list_block_cons_cons, list_block_singleton, List.append_assoc]
    | cons b t =>
      refine ⟨("- ".data ++ a) ++ "\n".data ++ q, ?_⟩
      simp only [List.cons_append] at hq ⊢
      rw [list_block_cons_cons, hq]
      simp [List.append_assoc]

/-- C10: on every ParsedLog whose Next Steps value is a non-empty list of
newline-free bullet strings, the rendered report is some prefix followed by
the final bullet line `- <last>` and then exactly one newline character: the
report ends with one newline immediately after the last Next Steps bullet. -/
theorem claim10_trailing_newline (t b f o : List (List Char))
    (date : List Char) (ns : List (List Char)) (last : List Char)
    (hn : ∃ ns0, ns = ns0 ++ [last]) (hlast : '\n' ∉ last) :
    ∃ p, generate_report [(tasksLabel, t), (bugsLabel, b), (fixesLabel, f),
        (obsLabel, o), (nextLabel, ns)] date =
      p ++ ("- ".data ++ last ++ "\n".data) ∧
      '\n' ∉ "- ".data ++ last := by
  obtain ⟨ns0, rfl⟩ := hn
  obtain ⟨q, hq⟩ := list_block_append_last ns0 last
  refine ⟨"### 📣 Project Update: ".data ++ date ++
      "\n\n#### 🔑 Key Takeaways\n".data ++ list_block (t ++ f ++ o) ++
      "\n\n#### 🐛 Bugs Found\n".data ++ list_block b ++
      "\n\n#### 📊 Progress Summary\n".data ++ list_block (f ++ o) ++
      "\n\n#### 🔁 Next Steps\n".data ++ q, ?_, ?_⟩
  · rw [generate_report_canonical, hq]
    simp [List.append_assoc]
  · intro hmem
    rcases List.mem_append.mp hmem with h | h
    · exact absurd h (by decide)
    · exact hlast h

/-- Witness for C10 at a one-bullet Next Steps section. -/
theorem claim10_witness :
    ∃ p, generate_report [(tasksLabel, []), (bugsLabel, []), (fixesLabel, []),
        (obsLabel, []), (nextLabel, ["Fix crash".data])] "2024-03-01".data =
      p ++ ("- ".data ++ "Fix crash".data ++ "\n".data) ∧
      '\n' ∉ "- ".data ++ "Fix crash".data :=
  claim10_trailing_newline [] [] [] [] "2024-03-01".data
    ["Fix crash".data] "Fix crash".data ⟨[], rfl⟩ (by decide)

/-! ## Claim C7: error handling in `main` -/

theorem find_latest_log_none (files : List (List Char))
    (h : ∀ f ∈ files, matchesLogPat f = false) : find_latest_log files = none := by
  have hdef : find_latest_log files =
      if (files.filter matchesLogPat).isEmpty = true then none
      else (sortDesc (files.filter matchesLogPat)).head? := rfl
  rw [hdef, if_pos]
  rw [List.isEmpty_iff, List.filter_eq_nil_iff]
  intro a ha
  simp [h a ha]

theorem find_latest_log_some_mem (files : List (List Char)) (y : List Char)
    (h : find_latest_log files = some y) :
    y ∈ files ∧ matchesLogPat y = true := by
  have hdef : find_latest_log files =
      if (files.filter matchesLogPat).isEmpty = true then none
      else (sortDesc (files.filter matchesLogPat)).head? := rfl
  rw [hdef] at h
  by_cases hm : (files.filter matchesLogPat).isEmpty = true
  · rw [if_pos hm] at h
    exact absurd h (by simp)
  · rw [if_neg hm] at h
    have hy : y ∈ sortDesc (files.filter matchesLogPat) := by
      cases hs : sortDesc (files.filter matchesLogPat) with
      | nil =>
        rw [hs] at h
        exact absurd h (by simp)
      | cons hd tl =>
        rw [hs] at h
        have := Option.some.inj h
        rw [← this]
        simp
    rw [mem_sortDesc] at hy
    exact ⟨(List.mem_filter.mp hy).1, (List.mem_filter.mp hy).2⟩

theorem lookup_of_key_mem (dir : List (List Char × Option (List Char)))
    (k : List Char) (h : k ∈ dir.map Prod.fst) :
    ∃ v, dir.lookup k = some v ∧ (k, v) ∈ dir := by
  induction dir with
  | nil => simp at h
  | cons e rest ih =>
    obtain ⟨k0, v0⟩ := e
    cases hbeq : (k == k0) with
    | true =>
      refine ⟨v0, ?_, ?_⟩
      · rw [List.lookup_cons]
        simp [hbeq]
      · have hk : k = k0 := eq_of_beq hbeq
        rw [hk]
        simp
    | false =>
      have hk : k ∈ rest.map Prod.fst := by
        simp only [List.map_cons, List.mem_cons] at h
        rcases h with h | h
        · exfalso
          have : (k == k0) = true := by
            rw [h]
            exact beq_self_eq_true k0
          rw [this] at hbeq
          exact Bool.noConfusion hbeq
        · exact h
      obtain ⟨v, hv1, hv2⟩ := ih hk
      refine ⟨v, ?_, List.mem_cons_of_mem _ hv2⟩
      rw [List.lookup_cons]
      simp [hbeq, hv1]

/-- C7 fails as stated: a directory whose only (matching) log file is
unreadable makes `main` raise an uncaught exception (`open`/`read` has no
try/except around it), instead of degrading gracefully as the claim asserts
for every condition other than "no matching file". -/
theorem claim7_counterexample :
    main [("QA_Log_a.md".data, none)] "2024-01-01".data = Except.error () := rfl

/-- C7 (amended): the absence of any matching log file is handled by printing
the fixed message and returning normally; and whenever every directory entry
is readable, `main` returns normally whatever the file contents are (malformed
headings, missing sections and unparseable dates all degrade to
placeholders/defaults). An unreadable selected file, however, raises. -/
theorem claim7_error_handling (dir : List (List Char × Option (List Char)))
    (today : List Char) :
    ((∀ entry ∈ dir, matchesLogPat entry.1 = false) →
      main dir today = Except.ok (failMessage ++ "\n".data)) ∧
    ((∀ entry ∈ dir, entry.2.isSome = true) →
      ∃ out, main dir today = Except.ok out) := by
  have hstep : main dir today =
      (match find_latest_log (dir.map Prod.fst) with
        | none => Except.ok (failMessage ++ "\n".data)
        | some logFile =>
          match (dir.lookup logFile).getD none with
          | none => Except.error ()
          | some content =>
            Except.ok (generate_report (parse_log content)
              (extract_date_from_filename logFile today) ++ "\n".data)) := rfl
  constructor
  · intro h
    have hnone : find_latest_log (dir.map Prod.fst) = none := by
      apply find_latest_log_none
      intro f hf
      rcases List.mem_map.mp hf with ⟨entry, hentry, heq⟩
      rw [← heq]
      exact h entry hentry
    rw [hnone] at hstep
    exact hstep
  · intro h
    cases hf : find_latest_log (dir.map Prod.fst) with
    | none =>
      rw [hf] at hstep
      exact ⟨failMessage ++ "\n".data, hstep⟩
    | some logFile =>
      rw [hf] at hstep
      have hmem : logFile ∈ dir.map Prod.fst :=
        (find_latest_log_some_mem (dir.map Prod.fst) logFile hf).1
      obtain ⟨v, hv1, hv2⟩ := lookup_of_key_mem dir logFile hmem
      have hsome : v.isSome = true := h (logFile, v) hv2
      obtain ⟨content, hcontent⟩ := Option.isSome_iff_exists.mp hsome
      have hstep2 : main dir today =
          (match (dir.lookup logFile).getD none with
            | none => Except.error ()
            | some content2 =>
              Except.ok (generate_report (parse_log content2)
                (extract_date_from_filename logFile today) ++ "\n".data)) := hstep
      rw [hv1, hcontent] at hstep2
      exact ⟨generate_report (parse_log content)
        (extract_date_from_filename logFile today) ++ "\n".data, hstep2⟩

/-- Witness for C7 (amended): a directory with no matching file gets the
user-facing message and a normal return; a readable directory returns
normally. -/
theorem claim7_witness :
    main [("notes.txt".data, some [])] "2024-01-01".data =
      Except.ok (failMessage ++ "\n".data) :=
  (claim7_error_handling [("notes.txt".data, some [])] "2024-01-01".data).1
    (by decide)

/-! ## Claim C8: round-trip -/

theorem lineJoin_nil : lineJoin [] = [] := rfl

theorem lineJoin_cons (l : List Char) (ls : List (List Char)) :
    lineJoin (l :: ls) = l ++ '\n' :: lineJoin ls := by
  simp [lineJoin]

theorem lineJoin_append (ls1 ls2 : List (List Char)) :
    lineJoin (ls1 ++ ls2) = lineJoin ls1 ++ lineJoin ls2 := by
  simp [lineJoin]

theorem lineJoin_eq_list_block (items : List (List Char)) (hne : items ≠ []) :
    lineJoin (items.map (fun it => "- ".data ++ it)) =
      list_block items ++ '\n' :: [] := by
  induction items with
  | nil => exact absurd rfl hne
  | cons a rest ih =>
    cases rest with
    | nil =>
      rw [List.map_cons, List.map_nil, lineJoin_cons, lineJoin_nil,
        list_block_singleton]
    | cons b t =>
      rw [List.map_cons, lineJoin_cons, ih (by simp), list_block_cons_cons]
      simp [List.append_assoc]

theorem option_all_spec (o : Option Char) (f : Char → Bool) (h : o.all f = true) :
    ∀ c, o = some c → f c = true := by
  intro c hc
  rw [hc] at h
  simpa [Option.all] using h

theorem cleanItem_head (it : List Char) (h : cleanItem it) :
    ∀ c, it.head? = some c → isDashSpace c = false ∧ pyIsSpace c = false := by
  intro c hc
  have := option_all_spec it.head? _ h.2.2.1 c hc
  constructor
  · by_contra hd
    simp only [Bool.not_eq_false] at hd
    rw [hd] at this
    simp at this
  · by_contra hd
    simp only [Bool.not_eq_false] at hd
    rw [hd] at this
    simp at this

theorem cleanItem_last (it : List Char) (h : cleanItem it) :
    ∀ c, it.getLast? = some c → isDashSpace c = false ∧ pyIsSpace c = false := by
  intro c hc
  have := option_all_spec it.getLast? _ h.2.2.2.1 c hc
  constructor
  · by_contra hd
    simp only [Bool.not_eq_false] at hd
    rw [hd] at this
    simp at this
  · by_contra hd
    simp only [Bool.not_eq_false] at hd
    rw [hd] at this
    simp at this

theorem head?_append_of_head {l X : List Char} {c : Char}
    (h : l.head? = some c) : (l ++ X).head? = some c := by
  cases l with
  | nil => simp at h
  | cons a as => simpa using h

theorem not_prefix_of_head_ne {p s : List Char} {c d : Char}
    (hp : p.head? = some c) (hs : s.head? = some d) (hne : c ≠ d) :
    ¬ p <+: s := by
  rintro ⟨w, hw⟩
  cases p with
  | nil => simp at hp
  | cons a as =>
    cases s with
    | nil => simp at hs
    | cons e es =>
      have ha : a = c := by simpa using hp
      have he : e = d := by simpa using hs
      have hae : a = e := by
        simp only [List.cons_append, List.cons.injEq] at hw
        exact hw.1
      exact hne (by rw [← ha, hae, he])

theorem peel_heading (q l R : List Char) (_hq : q ≠ []) (hqnl : '\n' ∉ q)
    (hlnl : '\n' ∉ l) (hqs : ¬ q <:+ l) :
    ∀ i < l.length + 1, ¬ (q ++ ['\n']) <+: (l ++ '\n' :: R).drop i := by
  intro i hi hpre
  have hdrop : (l ++ '\n' :: R).drop i = l.drop i ++ '\n' :: R :=
    List.drop_append_of_le_length (by omega)
  rw [hdrop] at hpre
  rcases prefix_append_split hpre with ⟨hle, hp⟩ | ⟨hlt, hap, hdp⟩
  · have hmem : '\n' ∈ l.drop i :=
      List.IsPrefix.mem (by simp) hp
    exact hlnl (List.drop_subset i l hmem)
  · by_cases hu : (l.drop i).length = q.length
    · have hu_eq : l.drop i = q := by
        have h1 := List.prefix_iff_eq_take.mp hap
        rw [h1, hu, List.take_left]
      exact hqs (hu_eq ▸ List.drop_suffix i l)
    · have hul : (l.drop i).length < q.length := by
        rw [List.length_append] at hlt
        simp only [List.length_cons, List.length_nil] at hlt
        omega
      have hdq : (q ++ ['\n']).drop (l.drop i).length =
          q.drop (l.drop i).length ++ ['\n'] :=
        List.drop_append_of_le_length (le_of_lt hul)
      rw [hdq] at hdp
      cases hqd : q.drop (l.drop i).length with
      | nil =>
        have hl2 := congrArg List.length hqd
        rw [List.length_drop] at hl2
        simp only [List.length_nil] at hl2
        omega
      | cons c cs =>
        rw [hqd] at hdp
        obtain ⟨w, hw⟩ := hdp
        simp only [List.cons_append, List.cons.injEq] at hw
        apply hqnl
        have hcq : c ∈ q := by
          have : c ∈ q.drop (l.drop i).length := by
            rw [hqd]
            simp
          exact List.drop_subset _ q this
        rw [hw.1] at hcq
        exact hcq

theorem peel_lookahead_strict (p l R : List Char) (hlnl : '\n' ∉ l) :
    ∀ i < l.length, ¬ ('\n' :: p) <+: (l ++ '\n' :: R).drop i := by
  intro i hi hpre
  have hdrop : (l ++ '\n' :: R).drop i = l.drop i ++ '\n' :: R :=
    List.drop_append_of_le_length (by omega)
  rw [hdrop] at hpre
  cases hld : l.drop i with
  | nil =>
    have hl2 := congrArg List.length hld
    rw [List.length_drop] at hl2
    simp only [List.length_nil] at hl2
    omega
  | cons c cs =>
    rw [hld] at hpre
    obtain ⟨w, hw⟩ := hpre
    simp only [List.cons_append, List.cons.injEq] at hw
    have hcl : c ∈ l := by
      have : c ∈ l.drop i := by
        rw [hld]
        simp
      exact List.drop_subset i l this
    rw [← hw.1] at hcl
    exact hlnl hcl

theorem peel_lookahead (p l R : List Char) (hlnl : '\n' ∉ l)
    (hpR : ¬ p <+: R) :
    ∀ i < l.length + 1, ¬ ('\n' :: p) <+: (l ++ '\n' :: R).drop i := by
  intro i hi hpre
  by_cases hi2 : i < l.length
  · exact peel_lookahead_strict p l R hlnl i hi2 hpre
  · have hieq : i = l.length := by omega
    subst hieq
    have hdrop : (l ++ '\n' :: R).drop l.length = '\n' :: R := by
      rw [List.drop_append_of_le_length (le_refl _)]
      simp
    rw [hdrop] at hpre
    obtain ⟨w, hw⟩ := hpre
    simp only [List.cons_append, List.cons.injEq] at hw
    exact hpR ⟨w, hw.2⟩

theorem firstOccur_heading_skip (q : List Char) (ls : List (List Char))
    (t : List Char) (hq : q ≠ []) (hqnl : '\n' ∉ q)
    (hls : ∀ l ∈ ls, '\n' ∉ l ∧ ¬ q <:+ l) :
    firstOccur (q ++ ['\n']) (lineJoin ls ++ t) =
      (firstOccur (q ++ ['\n']) t).map (· + (lineJoin ls).length) := by
  induction ls with
  | nil =>
    rw [lineJoin_nil, List.nil_append]
    cases firstOccur (q ++ ['\n']) t <;> simp
  | cons l ls2 ih =>
    have h1 := hls l (by simp)
    have hshape : lineJoin (l :: ls2) ++ t =
        (l ++ ['\n']) ++ (lineJoin ls2 ++ t) := by
      rw [lineJoin_cons]
      simp [List.append_assoc]
    have halign : (l ++ ['\n']) ++ (lineJoin ls2 ++ t) =
        l ++ '\n' :: (lineJoin ls2 ++ t) := by
      simp [List.append_assoc]
    have hno : ∀ i < (l ++ ['\n']).length,
        ¬ (q ++ ['\n']) <+: ((l ++ ['\n']) ++ (lineJoin ls2 ++ t)).drop i := by
      intro i hi hpre
      have hlen : i < l.length + 1 := by
        rw [List.length_append] at hi
        simpa using hi
      rw [halign] at hpre
      exact peel_heading q l (lineJoin ls2 ++ t) hq hqnl h1.1 h1.2 i hlen hpre
    rw [hshape, firstOccur_append_shift _ _ _ hno,
      ih (fun l2 hl2 => hls l2 (by simp [hl2]))]
    cases firstOccur (q ++ ['\n']) t with
    | none => rfl
    | some k =>
      simp only [Option.map_map, Option.map_some', Option.some.injEq,
        Function.comp]
      rw [lineJoin_cons]
      simp only [List.length_append, List.length_cons, List.length_nil]
      omega

theorem firstOccur_lookahead_bullets_nil (ls : List (List Char))
    (hls : ∀ l ∈ ls, '\n' ∉ l ∧ l.head? = some '-') :
    firstOccur lookaheadText (lineJoin ls) = none := by
  induction ls with
  | nil => rfl
  | cons l ls2 ih =>
    have h1 := hls l (by simp)
    rw [lineJoin_cons, firstOccur_eq_none_iff]
    intro j hpre
    by_cases hj : j < l.length + 1
    · have hpR : ¬ "###".data <+: lineJoin ls2 := by
        cases ls2 with
        | nil =>
          rw [lineJoin_nil, List.prefix_nil]
          intro hx
          exact absurd hx (by decide)
        | cons l2 ls3 =>
          have h2 := hls l2 (by simp)
          rw [lineJoin_cons]
          exact not_prefix_of_head_ne (c := '#') (d := '-') (by decide)
            (head?_append_of_head h2.2) (by decide)
      rw [show lookaheadText = '\n' :: "###".data from rfl] at hpre
      exact peel_lookahead "###".data l (lineJoin ls2) h1.1 hpR j hj hpre
    · have hihnone := ih (fun l2 hl2 => hls l2 (by simp [hl2]))
      have hall := (firstOccur_eq_none_iff _ _).mp hihnone
      have hdrop : (l ++ '\n' :: lineJoin ls2).drop j =
          (lineJoin ls2).drop (j - (l.length + 1)) := by
        obtain ⟨m, rfl⟩ : ∃ m, j = (l.length + 1) + m :=
          ⟨j - (l.length + 1), by omega⟩
        have hidx : l.length + 1 + m - (l.length + 1) = m := by omega
        rw [hidx]
        have hsh : l ++ '\n' :: lineJoin ls2 = (l ++ ['\n']) ++ lineJoin ls2 := by
          simp
        rw [hsh]
        have hlen : l.length + 1 = (l ++ ['\n']).length := by simp
        rw [hlen, List.drop_append]
      rw [hdrop] at hpre
      exact hall _ hpre

theorem firstOccur_lookahead_bullets_heading (ls : List (List Char))
    (t : List Char) (hne : ls ≠ [])
    (hls : ∀ l ∈ ls, '\n' ∉ l ∧ l.head? = some '-')
    (ht : "###".data <+: t) :
    firstOccur lookaheadText (lineJoin ls ++ t) =
      some ((lineJoin ls).length - 1) := by
  induction ls with
  | nil => exact absurd rfl hne
  | cons l ls2 ih =>
    have h1 := hls l (by simp)
    cases ls2 with
    | nil =>
      have hsh : lineJoin [l] ++ t = l ++ '\n' :: t := by
        rw [lineJoin_cons, lineJoin_nil]
        simp
      have hlen : (lineJoin [l]).length = l.length + 1 := by
        rw [lineJoin_cons, lineJoin_nil]
        simp
      rw [hsh, hlen, firstOccur_eq_some_iff]
      have hidx : l.length + 1 - 1 = l.length := by omega
      rw [hidx]
      constructor
      · have hdrop : (l ++ '\n' :: t).drop l.length = '\n' :: t := by
          rw [List.drop_append_of_le_length (le_refl _)]
          simp
        rw [hdrop]
        obtain ⟨w, hw⟩ := ht
        exact ⟨w, congrArg (fun x => '\n' :: x)
          (show '#' :: '#' :: '#' :: w = t from hw)⟩
      · intro j hj
        rw [show lookaheadText = '\n' :: "###".data from rfl]
        exact peel_lookahead_strict "###".data l t h1.1 j hj
    | cons l2 ls3 =>
      have hih := ih (by simp) (fun x hx => hls x (by simp [hx]))
      have hsh : lineJoin (l :: l2 :: ls3) ++ t =
          (l ++ ['\n']) ++ (lineJoin (l2 :: ls3) ++ t) := by
        rw [lineJoin_cons]
        simp [List.append_assoc]
      have halign : (l ++ ['\n']) ++ (lineJoin (l2 :: ls3) ++ t) =
          l ++ '\n' :: (lineJoin (l2 :: ls3) ++ t) := by
        simp [List.append_assoc]
      have hno : ∀ i < (l ++ ['\n']).length,
          ¬ lookaheadText <+: ((l ++ ['\n']) ++ (lineJoin (l2 :: ls3) ++ t)).drop i := by
        intro i hi hpre
        have hlen : i < l.length + 1 := by
          rw [List.length_append] at hi
          simpa using hi
        have h2 := hls l2 (by simp)
        have hpR : ¬ "###".data <+: lineJoin (l2 :: ls3) ++ t := by
          rw [lineJoin_cons]
          have halign2 : (l2 ++ '\n' :: lineJoin ls3) ++ t =
              l2 ++ ('\n' :: lineJoin ls3 ++ t) := by
            simp [List.append_assoc]
          rw [halign2]
          exact not_prefix_of_head_ne (c := '#') (d := '-') (by decide)
            (head?_append_of_head h2.2) (by decide)
        rw [halign] at hpre
        rw [show lookaheadText = '\n' :: "###".data from rfl] at hpre
        exact peel_lookahead "###".data l (lineJoin (l2 :: ls3) ++ t)
          h1.1 hpR i hlen hpre
      rw [hsh, firstOccur_append_shift _ _ _ hno, hih]
      have hpos : 1 ≤ (lineJoin (l2 :: ls3)).length := by
        rw [lineJoin_cons]
        simp only [List.length_append, List.length_cons]
        omega
      have hjoin : (lineJoin (l :: l2 :: ls3)).length =
          l.length + 1 + (lineJoin (l2 :: ls3)).length := by
        rw [lineJoin_cons, List.length_append]
        simp only [List.length_cons]
        omega
      have hllen : (l ++ ['\n']).length = l.length + 1 := by simp
      simp only [Option.map_some', Option.some.injEq]
      omega

theorem map_id_of_mem {α : Type} (l : List α) (f : α → α)
    (h : ∀ a ∈ l, f a = a) : l.map f = l := by
  induction l with
  | nil => rfl
  | cons a rest ih =>
    rw [List.map_cons, h a (by simp), ih (fun x hx => h x (by simp [hx]))]

theorem firstOccur_heading_doc (lbl : List Char) (preLines : List (List Char))
    (rest : List Char)
    (hpre : ∀ l ∈ preLines, '\n' ∉ l ∧ ¬ ("### ".data ++ lbl) <:+ l)
    (hlblnl : '\n' ∉ lbl) :
    firstOccur (headingText lbl)
      (lineJoin preLines ++ (("### ".data ++ lbl) ++ '\n' :: rest)) =
      some (lineJoin preLines).length := by
  have hq : headingText lbl = ("### ".data ++ lbl) ++ ['\n'] := rfl
  rw [hq]
  have hqne : ("### ".data ++ lbl) ≠ [] := by simp
  have hqnl : '\n' ∉ "### ".data ++ lbl := by
    intro hmem
    rcases List.mem_append.mp hmem with h | h
    · exact absurd h (by decide)
    · exact hlblnl h
  rw [firstOccur_heading_skip _ _ _ hqne hqnl hpre]
  have hf : firstOccur (("### ".data ++ lbl) ++ ['\n'])
      (("### ".data ++ lbl) ++ '\n' :: rest) = some 0 := by
    rw [firstOccur_eq_some_iff]
    refine ⟨?_, fun j hj => by omega⟩
    rw [List.drop_zero]
    exact ⟨rest, by simp [List.append_assoc]⟩
  rw [hf]
  simp

theorem captureBlock_wf_mid (lbl : List Char)
    (preLines bullets : List (List Char)) (t : List Char)
    (hlblnl : '\n' ∉ lbl)
    (hpre : ∀ l ∈ preLines, '\n' ∉ l ∧ ¬ ("### ".data ++ lbl) <:+ l)
    (hbne : bullets ≠ [])
    (hbul : ∀ l ∈ bullets, '\n' ∉ l ∧ l.head? = some '-')
    (ht : "###".data <+: t) :
    captureBlock
      (lineJoin preLines ++ (("### ".data ++ lbl) ++ '\n' ::
        (lineJoin bullets ++ t))) lbl =
      some ((lineJoin bullets).dropLast) := by
  have hfo := firstOccur_heading_doc lbl preLines (lineJoin bullets ++ t)
    hpre hlblnl
  have hdrop : (lineJoin preLines ++ (("### ".data ++ lbl) ++ '\n' ::
      (lineJoin bullets ++ t))).drop
      ((lineJoin preLines).length + (headingText lbl).length) =
      lineJoin bullets ++ t := by
    rw [List.drop_append]
    have h2 : ("### ".data ++ lbl) ++ '\n' :: (lineJoin bullets ++ t) =
        (("### ".data ++ lbl) ++ ['\n']) ++ (lineJoin bullets ++ t) := by
      simp
    rw [h2]
    have h3 : (headingText lbl).length = (("### ".data ++ lbl) ++ ['\n']).length :=
      rfl
    rw [h3, List.drop_left]
  have hlo := firstOccur_lookahead_bullets_heading bullets t hbne hbul ht
  have htake : (lineJoin bullets ++ t).take ((lineJoin bullets).length - 1) =
      (lineJoin bullets).dropLast := by
    rw [List.take_append_of_le_length (by omega), ← List.dropLast_eq_take]
  unfold captureBlock
  simp only [hfo, hdrop, hlo, htake]

theorem captureBlock_wf_last (lbl : List Char)
    (preLines bullets : List (List Char))
    (hlblnl : '\n' ∉ lbl)
    (hpre : ∀ l ∈ preLines, '\n' ∉ l ∧ ¬ ("### ".data ++ lbl) <:+ l)
    (hbul : ∀ l ∈ bullets, '\n' ∉ l ∧ l.head? = some '-') :
    captureBlock
      (lineJoin preLines ++ (("### ".data ++ lbl) ++ '\n' :: lineJoin bullets))
      lbl = some (lineJoin bullets) := by
  have hfo := firstOccur_heading_doc lbl preLines (lineJoin bullets) hpre hlblnl
  have hdrop : (lineJoin preLines ++ (("### ".data ++ lbl) ++ '\n' ::
      lineJoin bullets)).drop
      ((lineJoin preLines).length + (headingText lbl).length) =
      lineJoin bullets := by
    rw [List.drop_append]
    have h2 : ("### ".data ++ lbl) ++ '\n' :: lineJoin bullets =
        (("### ".data ++ lbl) ++ ['\n']) ++ lineJoin bullets := by
      simp
    rw [h2]
    have h3 : (headingText lbl).length = (("### ".data ++ lbl) ++ ['\n']).length :=
      rfl
    rw [h3, List.drop_left]
  have hlo := firstOccur_lookahead_bullets_nil bullets hbul
  unfold captureBlock
  simp only [hfo, hdrop, hlo]

theorem list_block_head_dash (items : List (List Char)) (hne : items ≠ []) :
    (list_block items).head? = some '-' := by
  cases items with
  | nil => exact absurd rfl hne
  | cons a rest =>
    cases rest with
    | nil =>
      rw [list_block_singleton]
      rfl
    | cons b t =>
      rw [list_block_cons_cons]
      rfl

theorem stripDashSpace_bullet (it : List Char) (h : cleanItem it) :
    pyStrip (stripDashSpace ("- ".data ++ it)) = it := by
  have hhead := cleanItem_head it h
  have hlast := cleanItem_last it h
  have h1 : stripLeftBy isDashSpace ("- ".data ++ it) = it := by
    show List.dropWhile isDashSpace ('-' :: ' ' :: it) = it
    rw [List.dropWhile_cons, if_pos (by decide : isDashSpace '-' = true),
      List.dropWhile_cons, if_pos (by decide : isDashSpace ' ' = true)]
    exact stripLeftBy_of_head isDashSpace it (fun c hc => (hhead c hc).1)
  have h2 : stripDashSpace ("- ".data ++ it) = it := by
    unfold stripDashSpace stripBy
    rw [h1]
    exact stripRightBy_of_getLast isDashSpace it (fun c hc => (hlast c hc).1)
  rw [h2]
  exact stripBy_of_ends pyIsSpace it (fun c hc => (hhead c hc).2)
    (fun c hc => (hlast c hc).2)

theorem list_block_getLast (items : List (List Char)) (hne : items ≠ [])
    (hclean : ∀ it ∈ items, cleanItem it) :
    ∀ c, (list_block items).getLast? = some c →
      pyIsSpace c = false ∧ isDashSpace c = false := by
  rcases List.eq_nil_or_concat items with rfl | ⟨init, lastit, hcat⟩
  · exact absurd rfl hne
  · rw [List.concat_eq_append] at hcat
    have hlastmem : lastit ∈ items := by
      rw [hcat]
      simp
    have hlastne : lastit ≠ [] := (hclean lastit hlastmem).1
    obtain ⟨c0, hc0⟩ : ∃ c0, lastit.getLast? = some c0 := by
      cases hl : lastit.getLast? with
      | none => exact absurd (List.getLast?_eq_none_iff.mp hl) hlastne
      | some c0 => exact ⟨c0, rfl⟩
    obtain ⟨q, hq⟩ := list_block_append_last init lastit
    intro c hc
    rw [hcat, hq, List.getLast?_append, List.getLast?_append, hc0,
      Option.or_some, Option.or_some] at hc
    have hcc : c = c0 := (Option.some.inj hc).symm
    have h1 := cleanItem_last lastit (hclean lastit hlastmem) c0 hc0
    rw [hcc]
    exact ⟨h1.2, h1.1⟩

theorem processBlock_core (blk : List Char) (items : List (List Char))
    (hne : items ≠ []) (hclean : ∀ it ∈ items, cleanItem it)
    (hstrip : pyStrip blk = list_block items) :
    processBlock blk = items := by
  unfold processBlock
  rw [hstrip, splitNl_list_block items hne (fun it hit => (hclean it hit).2.1)]
  have hfil : ((items.map (fun it => "- ".data ++ it)).filter
      (fun line => !(pyStrip line).isEmpty)) =
      items.map (fun it => "- ".data ++ it) := by
    rw [List.filter_eq_self]
    intro line hline
    rcases List.mem_map.mp hline with ⟨it, hit, rfl⟩
    have hdash : '-' ∈ pyStrip ("- ".data ++ it) := by
      apply mem_stripBy_of_not
      · simp
      · decide
    have hnn : pyStrip ("- ".data ++ it) ≠ [] := by
      intro he
      rw [he] at hdash
      simp at hdash
    have hie : (pyStrip ("- ".data ++ it)).isEmpty = false := by
      rw [← Bool.not_eq_true, List.isEmpty_iff]
      exact hnn
    rw [hie]
    rfl
  rw [hfil, List.map_map]
  apply map_id_of_mem
  intro it hit
  show pyStrip (stripDashSpace ("- ".data ++ it)) = it
  exact stripDashSpace_bullet it (hclean it hit)

theorem pyStrip_list_block (items : List (List Char)) (hne : items ≠ [])
    (hclean : ∀ it ∈ items, cleanItem it) :
    pyStrip (list_block items) = list_block items := by
  apply stripBy_of_ends
  · intro c hc
    rw [list_block_head_dash items hne] at hc
    have hcd : c = '-' := (Option.some.inj hc).symm
    rw [hcd]
    decide
  · intro c hc
    exact (list_block_getLast items hne hclean c hc).1

theorem pyStrip_list_block_nl (items : List (List Char)) (hne : items ≠ [])
    (hclean : ∀ it ∈ items, cleanItem it) :
    pyStrip (list_block items ++ ['\n']) = list_block items := by
  unfold pyStrip stripBy
  have h1 : stripLeftBy pyIsSpace (list_block items ++ ['\n']) =
      list_block items ++ ['\n'] := by
    apply stripLeftBy_of_head
    intro c hc
    rw [head?_append_of_head (list_block_head_dash items hne)] at hc
    have hcd : c = '-' := (Option.some.inj hc).symm
    rw [hcd]
    decide
  rw [h1]
  unfold stripRightBy
  rw [List.reverse_append, show (['\n'] : List Char).reverse = ['\n'] from rfl,
    List.singleton_append, List.dropWhile_cons,
    if_pos (by decide : pyIsSpace '\n' = true)]
  have h3 : List.dropWhile pyIsSpace (list_block items).reverse =
      (list_block items).reverse := by
    apply stripLeftBy_of_head
    intro c hc
    rw [List.head?_reverse] at hc
    exact (list_block_getLast items hne hclean c hc).1
  rw [h3, List.reverse_reverse]

theorem not_heading_suffix_bullet (q it : List Char) (hq : q.head? = some '#')
    (hit : ¬ q <:+ it) : ¬ q <:+ "- ".data ++ it := by
  rintro ⟨w, hw⟩
  rw [show "- ".data ++ it = '-' :: ' ' :: it from rfl] at hw
  cases w with
  | nil =>
    simp only [List.nil_append] at hw
    rw [hw] at hq
    exact absurd (Option.some.inj hq) (by decide)
  | cons c w2 =>
    cases w2 with
    | nil =>
      simp only [List.cons_append, List.nil_append, List.cons.injEq] at hw
      rw [hw.2] at hq
      exact absurd (Option.some.inj hq) (by decide)
    | cons c2 w3 =>
      simp only [List.cons_append, List.cons.injEq] at hw
      exact hit ⟨w3, hw.2.2⟩

theorem heading_prefix_lineJoin_section (lbl : List Char)
    (x rest : List (List Char)) :
    "###".data <+: lineJoin (sectionLines lbl x ++ rest) := by
  have h1 : "###".data <+: "### ".data ++ lbl := ⟨' ' :: lbl, rfl⟩
  have h2 : lineJoin (sectionLines lbl x ++ rest) =
      ("### ".data ++ lbl) ++ ('\n' ::
        (lineJoin (x.map (fun it => "- ".data ++ it)) ++ lineJoin rest)) := by
    simp [sectionLines, lineJoin_append, lineJoin_cons, List.append_assoc]
  rw [h2]
  exact h1.trans (List.prefix_append _ _)

theorem section_lines_ok (lblk lblj : List Char) (hk : lblk ∈ sectionLabels)
    (hnlj : '\n' ∉ lblj)
    (hnsuf : ¬ ("### ".data ++ lblk) <:+ ("### ".data ++ lblj))
    (x : List (List Char)) (hcl : ∀ it ∈ x, cleanItem it) :
    ∀ l ∈ sectionLines lblj x, '\n' ∉ l ∧ ¬ ("### ".data ++ lblk) <:+ l := by
  intro l hl
  rcases List.mem_cons.mp hl with rfl | hl2
  · refine ⟨?_, hnsuf⟩
    intro hmem
    rcases List.mem_append.mp hmem with h | h
    · exact absurd h (by decide)
    · exact hnlj h
  · rcases List.mem_map.mp hl2 with ⟨it, hit, rfl⟩
    refine ⟨?_, ?_⟩
    · intro hmem
      rcases List.mem_append.mp hmem with h | h
      · exact absurd h (by decide)
      · exact (hcl it hit).2.1 h
    · exact not_heading_suffix_bullet _ it rfl ((hcl it hit).2.2.2.2 lblk hk)

theorem parseSection_wf (lbl : List Char) (items preLines : List (List Char))
    (tl : List Char) (doc : List Char)
    (hlblnl : '\n' ∉ lbl)
    (hpre : ∀ l ∈ preLines, '\n' ∉ l ∧ ¬ ("### ".data ++ lbl) <:+ l)
    (hne : items ≠ []) (hclean : ∀ it ∈ items, cleanItem it)
    (hcase : (doc = lineJoin preLines ++ (("### ".data ++ lbl) ++ '\n' ::
        lineJoin (items.map (fun it => "- ".data ++ it)))) ∨
      (doc = lineJoin preLines ++ (("### ".data ++ lbl) ++ '\n' ::
        (lineJoin (items.map (fun it => "- ".data ++ it)) ++ tl)) ∧
        "###".data <+: tl)) :
    parseSection doc lbl = items := by
  have hbul : ∀ l ∈ items.map (fun it => "- ".data ++ it),
      '\n' ∉ l ∧ l.head? = some '-' := by
    intro l hl
    rcases List.mem_map.mp hl with ⟨it, hit, rfl⟩
    constructor
    · intro hmem
      rcases List.mem_append.mp hmem with h | h
      · exact absurd h (by decide)
      · exact (hclean it hit).2.1 h
    · rfl
  have hbne : items.map (fun it => "- ".data ++ it) ≠ [] :=
    fun h => hne (List.map_eq_nil_iff.mp h)
  have hjl := lineJoin_eq_list_block items hne
  rcases hcase with hdoc | ⟨hdoc, ht⟩
  · have hcap := captureBlock_wf_last lbl preLines _ hlblnl hpre hbul
    have hproc : processBlock
        (lineJoin (items.map (fun it => "- ".data ++ it))) = items := by
      rw [hjl]
      exact processBlock_core _ items hne hclean
        (pyStrip_list_block_nl items hne hclean)
    rw [hdoc]
    unfold parseSection
    simp only [hcap, hproc]
    rw [if_neg (fun h => hne (List.isEmpty_iff.mp h))]
  · have hdl : (lineJoin (items.map (fun it => "- ".data ++ it))).dropLast =
        list_block items := by
      rw [hjl]
      exact List.dropLast_concat
    have hcap := captureBlock_wf_mid lbl preLines _ tl hlblnl hpre hbne hbul ht
    rw [hdl] at hcap
    have hproc : processBlock (list_block items) = items :=
      processBlock_core _ items hne hclean (pyStrip_list_block items hne hclean)
    rw [hdoc]
    unfold parseSection
    simp only [hcap, hproc]
    rw [if_neg (fun h => hne (List.isEmpty_iff.mp h))]

/-- C8 fails as stated: this document contains all 5 headings, each followed
by one or more bullet lines, yet parsing does not reproduce the Bugs Found
bullet lines: the Tasks bullet `- see ### 🐛 Bugs Found` ends with the Bugs
heading text, so the unanchored substring search finds the Bugs heading inside
that bullet first and captures the heading line itself into the section. -/
theorem claim8_counterexample :
    (parse_log (mkDoc ["see ### 🐛 Bugs Found".data] ["real bug".data]
        ["f1".data] ["o1".data] ["n1".data])).lookup bugsLabel =
      some ["### 🐛 Bugs Found".data, "real bug".data] ∧
    (["### 🐛 Bugs Found".data, "real bug".data] : List (List Char)) ≠
      ["real bug".data] := by
  exact ⟨by decide, by decide⟩

/-- C8 (amended): for every document consisting of the 5 headings in
canonical order, each followed by one or more bullet lines whose items are
clean — non-empty, newline-free, not starting or ending in a bullet/whitespace
character, and not ending with any heading string `### <label>` — parsing
reproduces the items verbatim under the corresponding SectionName keys, in
document order. (Without the no-heading-suffix condition the round-trip fails;
see the counterexample.) -/
theorem claim8_roundtrip (t b f o n : List (List Char))
    (htne : t ≠ []) (hbne2 : b ≠ []) (hfne : f ≠ []) (hone : o ≠ [])
    (hnne : n ≠ [])
    (hclean : ∀ it ∈ t ++ b ++ f ++ o ++ n, cleanItem it) :
    parse_log (mkDoc t b f o n) =
      [(tasksLabel, t), (bugsLabel, b), (fixesLabel, f), (obsLabel, o),
        (nextLabel, n)] := by
  have hct : ∀ it ∈ t, cleanItem it := fun it hit => hclean it (by simp [hit])
  have hcb : ∀ it ∈ b, cleanItem it := fun it hit => hclean it (by simp [hit])
  have hcf : ∀ it ∈ f, cleanItem it := fun it hit => hclean it (by simp [hit])
  have hco : ∀ it ∈ o, cleanItem it := fun it hit => hclean it (by simp [hit])
  have hcn : ∀ it ∈ n, cleanItem it := fun it hit => hclean it (by simp [hit])
  have e1 : parseSection (mkDoc t b f o n) tasksLabel = t := by
    apply parseSection_wf tasksLabel t []
      (lineJoin (sectionLines bugsLabel b ++ (sectionLines fixesLabel f ++
        (sectionLines obsLabel o ++ sectionLines nextLabel n))))
      (mkDoc t b f o n) (by decide) (by simp) htne hct
    right
    refine ⟨?_, heading_prefix_lineJoin_section bugsLabel b _⟩
    simp [mkDoc, sectionLines, lineJoin_append, lineJoin_cons, lineJoin_nil,
      List.append_assoc]
  have e2 : parseSection (mkDoc t b f o n) bugsLabel = b := by
    apply parseSection_wf bugsLabel b (sectionLines tasksLabel t)
      (lineJoin (sectionLines fixesLabel f ++ (sectionLines obsLabel o ++
        sectionLines nextLabel n)))
      (mkDoc t b f o n) (by decide)
      (section_lines_ok bugsLabel tasksLabel (by decide) (by decide)
        (by decide) t hct)
      hbne2 hcb
    right
    refine ⟨?_, heading_prefix_lineJoin_section fixesLabel f _⟩
    simp [mkDoc, sectionLines, lineJoin_append, lineJoin_cons, lineJoin_nil,
      List.append_assoc]
  have e3 : parseSection (mkDoc t b f o n) fixesLabel = f := by
    apply parseSection_wf fixesLabel f
      (sectionLines tasksLabel t ++ sectionLines bugsLabel b)
      (lineJoin (sectionLines obsLabel o ++ sectionLines nextLabel n))
      (mkDoc t b f o n) (by decide) ?_ hfne hcf
    · right
      refine ⟨?_, heading_prefix_lineJoin_section obsLabel o _⟩
      simp [mkDoc, sectionLines, lineJoin_append, lineJoin_cons, lineJoin_nil,
        List.append_assoc]
    · intro l hl
      rcases List.mem_append.mp hl with h | h
      · exact section_lines_ok fixesLabel tasksLabel (by decide) (by decide)
          (by decide) t hct l h
      · exact section_lines_ok fixesLabel bugsLabel (by decide) (by decide)
          (by decide) b hcb l h
  have e4 : parseSection (mkDoc t b f o n) obsLabel = o := by
    apply parseSection_wf obsLabel o
      (sectionLines tasksLabel t ++ (sectionLines bugsLabel b ++
        sectionLines fixesLabel f))
      (lineJoin (sectionLines nextLabel n))
      (mkDoc t b f o n) (by decide) ?_ hone hco
    · right
      refine ⟨?_, ?_⟩
      · simp [mkDoc, sectionLines, lineJoin_append, lineJoin_cons,
          lineJoin_nil, List.append_assoc]
      · have := heading_prefix_lineJoin_section nextLabel n []
        simpa using this
    · intro l hl
      rcases List.mem_append.mp hl with h | h
      · exact section_lines_ok obsLabel tasksLabel (by decide) (by decide)
          (by decide) t hct l h
      · rcases List.mem_append.mp h with h2 | h2
        · exact section_lines_ok obsLabel bugsLabel (by decide) (by decide)
            (by decide) b hcb l h2
        · exact section_lines_ok obsLabel fixesLabel (by decide) (by decide)
            (by decide) f hcf l h2
  have e5 : parseSection (mkDoc t b f o n) nextLabel = n := by
    apply parseSection_wf nextLabel n
      (sectionLines tasksLabel t ++ (sectionLines bugsLabel b ++
        (sectionLines fixesLabel f ++ sectionLines obsLabel o)))
      [] (mkDoc t b f o n) (by decide) ?_ hnne hcn
    · left
      simp [mkDoc, sectionLines, lineJoin_append, lineJoin_cons, lineJoin_nil,
        List.append_assoc]
    · intro l hl
      rcases List.mem_append.mp hl with h | h
      · exact section_lines_ok nextLabel tasksLabel (by decide) (by decide)
          (by decide) t hct l h
      · rcases List.mem_append.mp h with h2 | h2
        · exact section_lines_ok nextLabel bugsLabel (by decide) (by decide)
            (by decide) b hcb l h2
        · rcases List.mem_append.mp h2 with h3 | h3
          · exact section_lines_ok nextLabel fixesLabel (by decide) (by decide)
              (by decide) f hcf l h3
          · exact section_lines_ok nextLabel obsLabel (by decide) (by decide)
              (by decide) o hco l h3
  simp only [parse_log, sectionLabels, List.map_cons, List.map_nil,
    e1, e2, e3, e4, e5]

/-- Witness for C8 (amended) at a concrete clean document. -/
theorem claim8_witness :
    parse_log (mkDoc ["alpha".data] ["beta".data] ["gamma".data]
        ["delta".data] ["epsilon".data]) =
      [(tasksLabel, ["alpha".data]), (bugsLabel, ["beta".data]),
        (fixesLabel, ["gamma".data]), (obsLabel, ["delta".data]),
        (nextLabel, ["epsilon".data])] :=
  claim8_roundtrip ["alpha".data] ["beta".data] ["gamma".data]
    ["delta".data] ["epsilon".data] (by decide) (by decide) (by decide)
    (by decide) (by decide) (by decide)

end QALog



